import Mathlib

/-!
# goutils: a verification development

Shallow embedding of the three packages of the repository

* `cmdline`  (`src/cmdline/cmdline.go`):  `CmdLine.Run`
* `debugger` (`src/debugger/debugger.go`): `Start`, `End`, `EndGet`
* `utils`    (`src/utils/utils.go`):       `CopyFile`, `CopyDir`

The Go code talks to the operating system.  Every answer of the operating
system is an explicit input of the embedding (package `cmdline`), or is
computed from an explicit file-system state (package `utils`).
-/

set_option autoImplicit false

/-! ## Package cmdline -/

namespace cmdline

/-- The Go `error` values met in `Run`, identified by their message. -/
abbrev Error := String

/-- The struct `CmdLine` of `cmdline.go`. -/
structure CmdLine where
  Command : String
  OutBuffer : String
  DisplayBuffer : Bool
  MultiArgs : Bool
  UseLog : Bool
deriving DecidableEq, Repr

/-- The constructor `NewCmdLine(display)`: the other fields take Go zero values. -/
def NewCmdLine (display : Bool) : CmdLine :=
  { Command := "", OutBuffer := "", DisplayBuffer := display, MultiArgs := false, UseLog := false }

/-- The method `UseMultiArgs`. -/
def UseMultiArgs (c : CmdLine) : CmdLine := { c with MultiArgs := true }

/-- The white space of `unicode.IsSpace`, the separator set of `strings.Fields`. -/
def isSpace (c : Char) : Bool :=
  c = '\t' || c = '\n' || c.val = 0x0B || c.val = 0x0C || c = '\r' || c = ' '
    || c.val = 0x85 || c.val = 0xA0 || c.val = 0x1680
    || (0x2000 ≤ c.val && c.val ≤ 0x200A)
    || c.val = 0x2028 || c.val = 0x2029 || c.val = 0x202F || c.val = 0x205F || c.val = 0x3000

/-- The scan of `strings.Fields`: `cur` is the field being read, `cs` the unread input. -/
def fieldsAux : List Char → List Char → List (List Char)
  | [], cur => if cur = [] then [] else [cur]
  | c :: cs, cur =>
    if isSpace c then
      if cur = [] then fieldsAux cs [] else cur :: fieldsAux cs []
    else fieldsAux cs (cur ++ [c])

/-- The library function `strings.Fields`: the maximal runs of non-space characters. -/
def Fields (s : String) : List String := (fieldsAux s.data []).map String.mk

/-- The value `*exec.Cmd` as far as `Run` fixes it: the program and its arguments. -/
structure Cmd where
  Name : String
  Args : List String
deriving DecidableEq, Repr

/-- Lines 47-54 of `Run`: the command that is built.  `none` is the run-time panic
`index out of range [0] with length 0` of `cmdArgs[0]` on an empty slice. -/
def buildCmd (multiArgs : Bool) (command : String) : Option Cmd :=
  if multiArgs then
    some { Name := "sh", Args := ["-c", command] }
  else
    match Fields command with
    | [] => none
    | name :: args => some { Name := name, Args := args }

/-- What a `bufio.Scanner` over a pipe delivers: the tokens of the successive
`Scan` calls and the value of `Err()` once `Scan` has returned false. -/
structure Stream where
  lines : List String
  err : Option Error
deriving DecidableEq, Repr

/-- The answers of the operating system during one call of `Run`. -/
structure Env where
  /-- Error of `cmd.StdoutPipe()`. -/
  stdoutPipe : Option Error
  /-- Error of `cmd.StderrPipe()`. -/
  stderrPipe : Option Error
  /-- Error of `cmd.Start()`. -/
  start : Option Error
  /-- What the scanner on the child's standard output delivers. -/
  stdout : Stream
  /-- What the scanner on the child's standard error delivers. -/
  stderr : Stream
  /-- Value of `time.Now().UnixNano()` when the log file is named. -/
  now : Nat
  /-- Error of `os.OpenFile` on the log file. -/
  openLog : Option Error
  /-- Content the log file already has when it is opened (append mode). -/
  logExisting : String
  /-- Error the operating system gives to the k-th write on the open log file. -/
  logWrite : Nat → Option Error

/-- An `*os.File` open for appending. -/
structure File where
  name : String
  data : String
  closed : Bool
  /-- Number of writes the operating system has seen on this handle. -/
  writes : Nat
deriving DecidableEq, Repr

/-- The message of `os.ErrClosed` inside the `*PathError` of a write. -/
def errClosed (name : String) : Error := "write " ++ name ++ ": file already closed"

/-- The method `(*os.File).Write`: a closed handle refuses, otherwise the operating
system decides. -/
def File.Write (env : Env) (f : File) (b : String) : Except Error File :=
  if f.closed then .error (errClosed f.name)
  else match env.logWrite f.writes with
    | some e => .error e
    | none => .ok { f with data := f.data ++ b, writes := f.writes + 1 }

/-- The method `(*os.File).Close`. -/
def File.Close (f : File) : Except Error File :=
  if f.closed then .error ("close " ++ f.name ++ ": file already closed")
  else .ok { f with closed := true }

/-- How a call of `Run` ends. -/
inductive Outcome where
  /-- Normal return of `(string, error)`. -/
  | returned (out : String) (err : Option Error)
  /-- Call of `log.Fatalln`: the message is logged and the process exits with status 1. -/
  | fatal (msg : Error)
  /-- Run-time panic. -/
  | panicked (msg : String)
deriving DecidableEq, Repr

/-- The variables `Run` works on. -/
structure State where
  /-- The receiver `c`. -/
  c : CmdLine
  /-- The lines given to `fmt.Println`. -/
  console : List String
  /-- The variable `fileLog`; `none` is the nil pointer. -/
  fileLog : Option File
deriving DecidableEq, Repr

/-- Write on the variable `fileLog`; a nil `*os.File` answers `os.ErrInvalid`. -/
def writeLog (env : Env) (st : State) (b : String) : Except Error State :=
  match st.fileLog with
  | none => .error "invalid argument"
  | some f =>
    match File.Write env f b with
    | .error e => .error e
    | .ok f1 => .ok { st with fileLog := some f1 }

/-- The body of the two `for ... Scan()` loops (lines 84-97 and 113-126), run over
the tokens the scanner delivers.  The result is the state reached and, when a write
on the log file failed, the argument of `log.Fatalln`. -/
def drain (env : Env) : List String → State → State × Option Error
  | [], st => (st, none)
  | text :: rest, st =>
    let st1 : State :=
      if st.c.DisplayBuffer then { st with console := st.console ++ [text] }
      else { st with c := { st.c with OutBuffer := st.c.OutBuffer ++ (text ++ "\n") } }
    if st1.c.UseLog then
      match writeLog env st1 (text ++ "\n") with
      | .error e => (st1, some e)
      | .ok st2 => drain env rest st2
    else drain env rest st1

/-- Everything a call of `Run` leaves behind. -/
structure Result where
  outcome : Outcome
  /-- The variables at the end, among them the receiver and the log file. -/
  state : State
  /-- The command that was built, if any. -/
  cmd : Option Cmd
  /-- Whether `cmd.Start()` was called on it. -/
  started : Bool

/-- Name of the log file, line 78. -/
def logName (env : Env) : String := "/tmp/mgo_cmd_" ++ toString env.now ++ ".log"

/-- Line 78: the handle `os.OpenFile` gives with `O_APPEND|O_CREATE|O_WRONLY`. -/
def openLog (env : Env) : File :=
  { name := logName env, data := env.logExisting, closed := false, writes := 0 }

/-- Lines 77-82: with `UseLog` the log file is opened; an error is the argument of
`log.Fatalln`. -/
def openLogStep (env : Env) (st : State) : Except Error State :=
  if st.c.UseLog then
    match env.openLog with
    | some e => .error e
    | none => .ok { st with fileLog := some (openLog env) }
  else .ok st

/-- Lines 100-104: with `UseLog` the log file is closed; a failing `Close` is only
printed. -/
def closeLogStep (st : State) : State :=
  if st.c.UseLog then
    match st.fileLog with
    | none => { st with console := st.console ++ ["invalid argument"] }
    | some f =>
      match File.Close f with
      | .error e => { st with console := st.console ++ [e] }
      | .ok f1 => { st with fileLog := some f1 }
  else st

/-- The method `(*CmdLine).Run` of `cmdline.go`, lines 40-135. -/
def Run (c : CmdLine) (command : String) (env : Env) : Result :=
  -- line 45
  let st0 : State := { c := { c with OutBuffer := "" }, console := [], fileLog := none }
  -- lines 47-54
  match buildCmd st0.c.MultiArgs command with
  | none =>
    { outcome := .panicked "runtime error: index out of range [0] with length 0",
      state := st0, cmd := none, started := false }
  | some cmd =>
    -- lines 56-60
    match env.stdoutPipe with
    | some e =>
      { outcome := .returned st0.c.OutBuffer (some e), state := st0, cmd := some cmd,
        started := false }
    | none =>
      -- lines 62-66
      let err := env.stderrPipe
      match err with
      | some e =>
        { outcome := .returned st0.c.OutBuffer (some e), state := st0, cmd := some cmd,
          started := false }
      | none =>
        -- lines 69-71: the test is on `err`, the value returned would be `err2`
        let err2 := env.start
        if err.isSome then
          { outcome := .returned st0.c.OutBuffer err2, state := st0, cmd := some cmd,
            started := true }
        else
          -- lines 77-82
          match openLogStep env st0 with
          | .error e => { outcome := .fatal e, state := st0, cmd := some cmd, started := true }
          | .ok st1 =>
            -- lines 84-97
            match drain env env.stdout.lines st1 with
            | (st2, some e) =>
              { outcome := .fatal e, state := st2, cmd := some cmd, started := true }
            | (st2, none) =>
              -- lines 100-104
              let st3 := closeLogStep st2
              -- lines 106-108
              match env.stdout.err with
              | some e =>
                { outcome := .returned st3.c.OutBuffer (some e), state := st3,
                  cmd := some cmd, started := true }
              | none =>
                -- lines 113-126
                match drain env env.stderr.lines st3 with
                | (st4, some e) =>
                  { outcome := .fatal e, state := st4, cmd := some cmd, started := true }
                | (st4, none) =>
                  -- lines 128-134
                  match env.stderr.err with
                  | some e =>
                    { outcome := .returned st4.c.OutBuffer (some e), state := st4,
                      cmd := some cmd, started := true }
                  | none =>
                    { outcome := .returned st4.c.OutBuffer none, state := st4,
                      cmd := some cmd, started := true }

/-- An environment in which nothing fails and the child prints the given lines. -/
def quietEnv (out err : List String) : Env :=
  { stdoutPipe := none, stderrPipe := none, start := none,
    stdout := { lines := out, err := none }, stderr := { lines := err, err := none },
    now := 0, openLog := none, logExisting := "", logWrite := fun _ => none }

/-- An environment in which the program cannot be started: `Start` fails, it has
closed the read ends of both pipes, and the scanners report the failed read. -/
def startFails : Env :=
  { stdoutPipe := none, stderrPipe := none,
    start := some "exec: \"nosuchprog\": executable file not found in $PATH",
    stdout := { lines := [], err := some "read |0: file already closed" },
    stderr := { lines := [], err := some "read |0: file already closed" },
    now := 0, openLog := none, logExisting := "", logWrite := fun _ => none }

/-- An environment in which the log file cannot be opened. -/
def logDenied : Env :=
  { quietEnv ["hello"] [] with openLog := some "open /tmp/mgo_cmd_0.log: permission denied" }

/-- The text the specification describes: every line followed by a newline. -/
def joinLines : List String → String
  | [] => ""
  | l :: ls => (l ++ "\n") ++ joinLines ls

/-- The tokens the specification describes: the command split on white space, that
is the non-empty pieces between separators. -/
def specTokens (command : String) : List String :=
  ((command.data.splitOnP isSpace).filter (fun t => t ≠ [])).map String.mk

end cmdline

/-! ## Package debugger -/

namespace debugger

/-- A value of `time.Time` as the timers meet it: the zero value a map gives for a
missing key, or a reading of `time.Now()` with its monotonic clock reading (the
`int64` field `ext`, in nanoseconds). -/
inductive Time where
  | zero
  | mono (ext : Int)
deriving DecidableEq, Repr

/-- The constant `maxDuration` of package `time`. -/
def maxDuration : Int := 2 ^ 63 - 1

/-- The constant `minDuration` of package `time`. -/
def minDuration : Int := -(2 ^ 63)

/-- The method `Time.Sub`: the difference as a `time.Duration` (an `int64` number of
nanoseconds), saturated at `maxDuration` and `minDuration`.  Two readings of
`time.Now()` are compared on the monotonic clock; against the zero time (year 1)
the wall clocks are compared and the difference, far beyond 292 years, saturates. -/
def Time.Sub : Time → Time → Int
  | .mono t, .mono u =>
    if t - u > maxDuration then maxDuration
    else if t - u < minDuration then minDuration
    else t - u
  | .mono _, .zero => maxDuration
  | .zero, .mono _ => minDuration
  | .zero, .zero => 0

/-- The fields of `Debugger` the timers use.  `trace2` holds what `End` gives to the
logger `trace2`: the key and the duration. -/
structure Debugger where
  timeStart : String → Time
  timeEnd : String → Time
  debug : Int
  trace2 : List (String × Int)

/-- The state `InitDebugger` builds: two empty maps. -/
def InitDebugger (debug : Int) : Debugger :=
  { timeStart := fun _ => .zero, timeEnd := fun _ => .zero, debug := debug, trace2 := [] }

/-- Assignment `m[key] = t` on a map. -/
def assign (m : String → Time) (key : String) (t : Time) : String → Time :=
  fun k => if k = key then t else m k

/-- The method `Start`; `now` is the value of `time.Now()`. -/
def Start (d : Debugger) (key : String) (now : Int) : Debugger :=
  if d.debug = 1 then { d with timeStart := assign d.timeStart key (.mono now) } else d

/-- The method `End`. -/
def End (d : Debugger) (key : String) (now : Int) : Debugger :=
  if d.debug = 1 then
    let d1 : Debugger := { d with timeEnd := assign d.timeEnd key (.mono now) }
    { d1 with trace2 := d1.trace2 ++ [(key, (d1.timeEnd key).Sub (d1.timeStart key))] }
  else d

/-- The method `EndGet`: the new state and the duration returned. -/
def EndGet (d : Debugger) (key : String) (now : Int) : Debugger × Int :=
  if d.debug = 1 then
    let d1 : Debugger := { d with timeEnd := assign d.timeEnd key (.mono now) }
    (d1, (d1.timeEnd key).Sub (d1.timeStart key))
  else (d, 0)

/-- One call on the shared debugger. -/
inductive Call where
  | callStart (key : String)
  | callEnd (key : String)
  | callEndGet (key : String)
deriving DecidableEq, Repr

/-- The key a call is made with. -/
def Call.key : Call → String
  | .callStart k => k
  | .callEnd k => k
  | .callEndGet k => k

/-- One atomic step: a call made when the clock reads `now`. -/
def step (d : Debugger) (ev : Call × Int) : Debugger :=
  match ev.1 with
  | .callStart k => Start d k ev.2
  | .callEnd k => End d k ev.2
  | .callEndGet k => (EndGet d k ev.2).1

/-- A serialised sequence of calls, in the order the mutex admits them. -/
def run (d : Debugger) (evs : List (Call × Int)) : Debugger := evs.foldl step d

end debugger

/-! ## Package utils -/

namespace utils

/-- An absolute path, given by its components: `/a/b` is `["a", "b"]`, the root is `[]`. -/
abbrev Path := List String

/-- One step of `filepath.Clean` on the components read so far. -/
def cleanStep (acc : Path) (c : String) : Path :=
  if c = "" ∨ c = "." then acc
  else if c = ".." then acc.dropLast
  else acc ++ [c]

/-- The function `filepath.Clean` on an absolute path: empty and `.` components are
dropped, `..` removes the component before it, and `/..` is `/`. -/
def Clean (p : Path) : Path := p.foldl cleanStep []

/-- The function `filepath.Join(dir, name)`: concatenation, then `Clean`. -/
def Join (dir : Path) (name : String) : Path := Clean (dir ++ [name])

/-- The error numbers the modelled system calls give. -/
inductive Errno where
  | ENOENT
  | ENOTDIR
  | EEXIST
  | EISDIR
  | ENAMETOOLONG
  | EINVAL
deriving DecidableEq, Repr

/-- A Go `error`: the `*os.PathError` of a failed system call, or the value of
`fmt.Errorf` with its message. -/
inductive GoError where
  | pathError (op : String) (path : Path) (errno : Errno)
  | errorf (msg : String)
deriving DecidableEq, Repr

/-- The function `os.IsNotExist`. -/
def IsNotExist : GoError → Bool
  | .pathError _ _ .ENOENT => true
  | _ => false

/-- The constant `PATH_MAX` of Linux: the kernel refuses a path of this many bytes or
more with `ENAMETOOLONG`. -/
def PATH_MAX : Nat := 4096

/-- The constant `NAME_MAX` of Linux: the longest component, in bytes. -/
def NAME_MAX : Nat := 255

/-- The bytes of the components of a path, each with the separator before it. -/
def byteLen (p : Path) : Nat := (p.map (fun c => c.utf8ByteSize + 1)).sum

/-- The length in bytes of the path as a string: `/a/b` has 4 bytes, the root `/` 1. -/
def pathLen (p : Path) : Nat := if p = [] then 1 else byteLen p

/-- The test behind `ENAMETOOLONG`: the path or one of its components is too long. -/
def tooLong (p : Path) : Bool :=
  decide (PATH_MAX ≤ pathLen p) || p.any (fun c => decide (NAME_MAX < c.utf8ByteSize))

/-- What a path names: a regular file with content, permission bits and modification
time, a directory, a symbolic link, or a FIFO (named pipe).  The model keeps no link
target: every link dangles (its target lies in a directory that does not exist), so
following one fails with `ENOENT`.  No other process holds a FIFO open.  Other
special files are not modelled.  Permission bits are recorded and not enforced. -/
inductive Inode where
  | file (data : List Nat) (perm : Nat) (mtime : Nat)
  | dir (perm : Nat) (mtime : Nat)
  | symlink
  | fifo (perm : Nat) (mtime : Nat)
deriving DecidableEq, Repr

/-- The method `FileInfo.IsDir`. -/
def Inode.IsDir : Inode → Bool
  | .dir _ _ => true
  | _ => false

/-- The test `Mode()&os.ModeSymlink != 0`. -/
def Inode.IsSymlink : Inode → Bool
  | .symlink => true
  | _ => false

/-- The permission bits of `FileInfo.Mode()`. -/
def Inode.Perm : Inode → Nat
  | .file _ p _ => p
  | .dir p _ => p
  | .symlink => 0o777
  | .fifo p _ => p

/-- The method `FileInfo.ModTime`. -/
def Inode.ModTime : Inode → Nat
  | .file _ _ t => t
  | .dir _ t => t
  | .symlink => 0
  | .fifo _ t => t

/-- The file system and the process attributes the system calls read: the inode each
path names, the umask, and the clock the kernel stamps modifications with. -/
structure FS where
  nodes : List (Path × Inode)
  umask : Nat
  now : Nat
deriving DecidableEq, Repr

/-- The inode a path names: the first binding in the list. -/
def lookup : List (Path × Inode) → Path → Option Inode
  | [], _ => none
  | (k, v) :: rest, p => if k = p then some v else lookup rest p

/-- The list with `p` bound to `v` and to nothing else. -/
def bind (nodes : List (Path × Inode)) (p : Path) (v : Inode) : List (Path × Inode) :=
  (p, v) :: nodes.filter (fun kv => !decide (kv.1 = p))

/-- The permission bits left by the umask. -/
def applyUmask (umask perm : Nat) : Nat := perm ^^^ (perm &&& umask)

/-- Path resolution: from the directory `cur`, descend along the components.  Every
component but the last must name a directory; the last one is not followed. -/
def walk (nodes : List (Path × Inode)) : Path → List String → Except Errno Inode
  | cur, [] =>
    match lookup nodes cur with
    | some v => .ok v
    | none => .error .ENOENT
  | cur, c :: rest =>
    match lookup nodes cur with
    | some (.dir _ _) => walk nodes (cur ++ [c]) rest
    | some (.file _ _ _) => .error .ENOTDIR
    | some (.fifo _ _) => .error .ENOTDIR
    | some .symlink => .error .ENOENT
    | none => .error .ENOENT

/-- The function `os.Lstat`. -/
def Lstat (fs : FS) (p : Path) : Except GoError Inode :=
  if tooLong p then .error (.pathError "lstat" p .ENAMETOOLONG)
  else
    match walk fs.nodes [] p with
    | .ok v => .ok v
    | .error e => .error (.pathError "lstat" p e)

/-- The function `os.Stat`: as `Lstat`, and a final symbolic link is followed. -/
def Stat (fs : FS) (p : Path) : Except GoError Inode :=
  if tooLong p then .error (.pathError "stat" p .ENAMETOOLONG)
  else
    match walk fs.nodes [] p with
    | .ok .symlink => .error (.pathError "stat" p .ENOENT)
    | .ok v => .ok v
    | .error e => .error (.pathError "stat" p e)

/-- A new entry `p` in its parent directory, whose permission bits are `pperm`: the
parent gets a new modification time. -/
def addEntry (fs : FS) (p : Path) (v : Inode) (pperm : Nat) : FS :=
  { fs with nodes := bind (bind fs.nodes p v) p.dropLast (.dir pperm fs.now) }

/-- The function `os.Mkdir`: the parent must be a directory and the name free; the
new directory gets the permission bits the umask leaves, and the parent a new
modification time. -/
def Mkdir (fs : FS) (p : Path) (perm : Nat) : FS × Option GoError :=
  if p = [] then (fs, some (.pathError "mkdir" p .EEXIST))
  else if tooLong p then (fs, some (.pathError "mkdir" p .ENAMETOOLONG))
  else
    match walk fs.nodes [] p.dropLast with
    | .error e => (fs, some (.pathError "mkdir" p e))
    | .ok (.file _ _ _) => (fs, some (.pathError "mkdir" p .ENOTDIR))
    | .ok (.fifo _ _) => (fs, some (.pathError "mkdir" p .ENOTDIR))
    | .ok .symlink => (fs, some (.pathError "mkdir" p .ENOENT))
    | .ok (.dir pperm _) =>
      match lookup fs.nodes p with
      | some _ => (fs, some (.pathError "mkdir" p .EEXIST))
      | none =>
        (addEntry fs p (.dir (applyUmask fs.umask perm) fs.now) pperm, none)

/-- The end of `os.MkdirAll`: `Mkdir`, and when it fails, success all the same if
`Lstat` finds a directory. -/
def mkdirLast (fs : FS) (p : Path) (perm : Nat) : FS × Option GoError :=
  match Mkdir fs p perm with
  | (fs1, none) => (fs1, none)
  | (fs1, some e) =>
    match Lstat fs1 p with
    | .ok (.dir _ _) => (fs1, none)
    | _ => (fs1, some e)

/-- The function `os.MkdirAll` on the reversed path (last component first): the
fast path on `Stat`, then the parent unless it is the root, then `Mkdir`. -/
def mkdirAllRev (perm : Nat) : List String → FS → FS × Option GoError
  | [], fs =>
    match Stat fs [] with
    | .ok (.dir _ _) => (fs, none)
    | .ok _ => (fs, some (.pathError "mkdir" [] .ENOTDIR))
    | .error _ => mkdirLast fs [] perm
  | c :: parent, fs =>
    match Stat fs (c :: parent).reverse with
    | .ok (.dir _ _) => (fs, none)
    | .ok _ => (fs, some (.pathError "mkdir" (c :: parent).reverse .ENOTDIR))
    | .error _ =>
      if parent = [] then mkdirLast fs (c :: parent).reverse perm
      else
        match mkdirAllRev perm parent fs with
        | (fs1, some e) => (fs1, some e)
        | (fs1, none) => mkdirLast fs1 (c :: parent).reverse perm

/-- The function `os.MkdirAll`. -/
def MkdirAll (fs : FS) (p : Path) (perm : Nat) : FS × Option GoError :=
  mkdirAllRev perm p.reverse fs

/-- The name under which a binding is an entry of the directory `p`, if it is one. -/
def childName (p : Path) (kv : Path × Inode) : Option String :=
  if kv.1.dropLast = p then kv.1.getLast? else none

/-- Lexicographic comparison of two character sequences by code point. -/
def leChars : List Char → List Char → Bool
  | [], _ => true
  | _ :: _, [] => false
  | a :: as, b :: bs => decide (a.toNat < b.toNat) || (decide (a.toNat = b.toNat) && leChars as bs)

/-- The order `sort.Slice` puts entry names in: Go compares strings byte by byte,
which on UTF-8 text is the order of the code points. -/
def nameLE (a b : String) : Prop := leChars a.data b.data = true

instance : DecidableRel nameLE :=
  fun a b => inferInstanceAs (Decidable (leChars a.data b.data = true))

/-- The names in the directory `p`, sorted as `ioutil.ReadDir` sorts them. -/
def names (fs : FS) (p : Path) : List String :=
  ((fs.nodes.filterMap (childName p)).dedup).insertionSort nameLE

/-- The function `os.Open` (read only).  `none` means that the call does not return:
the open of a FIFO blocks until a writer opens it, and there is none. -/
def Open (fs : FS) (p : Path) : Option (Except GoError Inode) :=
  match Stat fs p with
  | .error (.pathError _ q e) => some (.error (.pathError "open" q e))
  | .error e => some (.error e)
  | .ok (.fifo _ _) => none
  | .ok v => some (.ok v)

/-- The loop of `(*os.File).Readdir` over the names read from the directory: `Lstat`
on the directory name joined with each name; a name that is gone is skipped, another
error ends the listing. -/
def lstatEntries (fs : FS) (p : Path) : List String → Except GoError (List (String × Inode))
  | [] => .ok []
  | x :: rest =>
    match Lstat fs (p ++ [x]) with
    | .error e => if IsNotExist e then lstatEntries fs p rest else .error e
    | .ok v =>
      match lstatEntries fs p rest with
      | .error e => .error e
      | .ok l => .ok ((x, v) :: l)

/-- The function `ioutil.ReadDir`: the entries of a directory, each with the
`FileInfo` that `Lstat` gives, sorted by name.  `none` means that `os.Open` blocks.
The order in which the kernel hands out the names is not fixed; the model takes the
sorted one, which fixes the entry whose error is reported when several fail. -/
def ReadDir (fs : FS) (p : Path) : Option (Except GoError (List (String × Inode))) :=
  match Open fs p with
  | none => none
  | some (.error e) => some (.error e)
  | some (.ok (.dir _ _)) => some (lstatEntries fs p (names fs p))
  | some (.ok _) => some (.error (.pathError "readdirent" p .ENOTDIR))

/-- The function `os.Create`, that is `OpenFile` with `O_RDWR|O_CREATE|O_TRUNC` and
mode `0666`: a regular file is truncated, a missing one is created.  A FIFO opened
for reading and writing opens at once and is left as it is. -/
def Create (fs : FS) (p : Path) : FS × Option GoError :=
  if p = [] then (fs, some (.pathError "open" p .EISDIR))
  else if tooLong p then (fs, some (.pathError "open" p .ENAMETOOLONG))
  else
    match walk fs.nodes [] p.dropLast with
    | .error e => (fs, some (.pathError "open" p e))
    | .ok (.file _ _ _) => (fs, some (.pathError "open" p .ENOTDIR))
    | .ok (.fifo _ _) => (fs, some (.pathError "open" p .ENOTDIR))
    | .ok .symlink => (fs, some (.pathError "open" p .ENOENT))
    | .ok (.dir pperm _) =>
      match lookup fs.nodes p with
      | some (.dir _ _) => (fs, some (.pathError "open" p .EISDIR))
      | some .symlink => (fs, some (.pathError "open" p .ENOENT))
      | some (.fifo _ _) => (fs, none)
      | some (.file _ perm _) =>
        ({ fs with nodes := bind fs.nodes p (.file [] perm fs.now) }, none)
      | none =>
        (addEntry fs p (.file [] (applyUmask fs.umask 0o666) fs.now) pperm, none)

/-- The function `os.Chmod`. -/
def Chmod (fs : FS) (p : Path) (perm : Nat) : FS × Option GoError :=
  match Stat fs p with
  | .error (.pathError _ q e) => (fs, some (.pathError "chmod" q e))
  | .error e => (fs, some e)
  | .ok (.file data _ mtime) => ({ fs with nodes := bind fs.nodes p (.file data perm mtime) }, none)
  | .ok (.dir _ mtime) => ({ fs with nodes := bind fs.nodes p (.dir perm mtime) }, none)
  | .ok (.fifo _ mtime) => ({ fs with nodes := bind fs.nodes p (.fifo perm mtime) }, none)
  | .ok .symlink => (fs, some (.pathError "chmod" p .ENOENT))

/-- The function `os.Chtimes`, as far as the modification time goes. -/
def Chtimes (fs : FS) (p : Path) (mtime : Nat) : FS × Option GoError :=
  match Stat fs p with
  | .error (.pathError _ q e) => (fs, some (.pathError "chtimes" q e))
  | .error e => (fs, some e)
  | .ok (.file data perm _) => ({ fs with nodes := bind fs.nodes p (.file data perm mtime) }, none)
  | .ok (.dir perm _) => ({ fs with nodes := bind fs.nodes p (.dir perm mtime) }, none)
  | .ok (.fifo perm _) => ({ fs with nodes := bind fs.nodes p (.fifo perm mtime) }, none)
  | .ok .symlink => (fs, some (.pathError "chtimes" p .ENOENT))

/-- The capacity of a pipe on Linux, in bytes. -/
def pipeCapacity : Nat := 65536

/-- The call `io.Copy(out, in)` on the two open files: all bytes of the inode `in`
was opened on are written to the inode of `out`.  Reading a directory fails.  A FIFO
takes what its buffer holds; `none` means that the write of more blocks. -/
def ioCopy (fs : FS) (src dst : Path) : Option (FS × Option GoError) :=
  match lookup fs.nodes src with
  | some (.file data _ _) =>
    match lookup fs.nodes dst with
    | some (.file _ perm _) =>
      some ({ fs with nodes := bind fs.nodes dst (.file data perm fs.now) }, none)
    | some (.fifo _ _) => if data.length ≤ pipeCapacity then some (fs, none) else none
    | _ => some (fs, some (.pathError "write" dst .ENOENT))
  | some (.dir _ _) => some (fs, some (.pathError "read" src .EISDIR))
  | _ => some (fs, some (.pathError "read" src .ENOENT))

/-- The method `(*os.File).Sync` on the file opened at `p`: `fsync` refuses a FIFO. -/
def Sync (fs : FS) (p : Path) : Option GoError :=
  match lookup fs.nodes p with
  | some (.fifo _ _) => some (.pathError "sync" p .EINVAL)
  | _ => none

/-- The function `CopyFile` of `utils.go`, lines 51-94.  `none` means that the call
does not return.  `Close` does not fail in the model. -/
def CopyFile (fs : FS) (src dst : Path) : Option (FS × Option GoError) :=
  -- os.Open(src)
  match Open fs src with
  | none => none
  | some (.error e) => some (fs, some e)
  | some (.ok _) =>
    -- os.Create(dst)
    match Create fs dst with
    | (fs1, some e) => some (fs1, some e)
    | (fs1, none) =>
      -- io.Copy(out, in)
      match ioCopy fs1 src dst with
      | none => none
      | some (fs2, some e) => some (fs2, some e)
      | some (fs2, none) =>
        -- out.Sync()
        match Sync fs2 dst with
        | some e => some (fs2, some e)
        | none =>
          -- os.Stat(src)
          match Stat fs2 src with
          | .error e => some (fs2, some e)
          | .ok si =>
            -- os.Chmod(dst, si.Mode())
            match Chmod fs2 dst si.Perm with
            | (fs3, some e) => some (fs3, some e)
            | (fs3, none) =>
              -- os.Chtimes(dst, si.ModTime(), si.ModTime())
              some (Chtimes fs3 dst si.ModTime)

/-- The `for` loop of `CopyDir`, lines 129-149, over the entries `ReadDir` gave;
`recurse` is `CopyDir` itself.  `none` means that `recurse` or `CopyFile` did not
return. -/
def copyEntries (recurse : FS → Path → Path → Bool → Option (FS × Option GoError))
    (src dst : Path) (crush : Bool) : List (String × Inode) → FS → Option (FS × Option GoError)
  | [], fs => some (fs, none)
  | entry :: rest, fs =>
    let srcPath := Join src entry.1
    let dstPath := Join dst entry.1
    if entry.2.IsDir then
      match recurse fs srcPath dstPath crush with
      | none => none
      | some (fs1, some e) => some (fs1, some e)
      | some (fs1, none) => copyEntries recurse src dst crush rest fs1
    else if entry.2.IsSymlink then
      copyEntries recurse src dst crush rest fs
    else
      match CopyFile fs srcPath dstPath with
      | none => none
      | some (fs1, some e) => some (fs1, some e)
      | some (fs1, none) => copyEntries recurse src dst crush rest fs1

/-- The function `CopyDir` of `utils.go`, lines 99-152.  The first argument bounds
the depth of the recursion; `none` means that the call has not returned: the bound
was reached, or a system call blocks.  Otherwise the result is the file system left
behind and the error returned (`none` is `nil`). -/
def CopyDir : Nat → FS → Path → Path → Bool → Option (FS × Option GoError)
  | 0, _, _, _, _ => none
  | fuel + 1, fs, src0, dst0, crush =>
    let src := Clean src0
    let dst := Clean dst0
    match Stat fs src with
    | .error e => some (fs, some e)
    | .ok si =>
      if !si.IsDir then some (fs, some (.errorf "Source is not a directory"))
      else
        let stDst := Stat fs dst
        match stDst with
        | .error e =>
          if !IsNotExist e then some (fs, some e)
          else
            match MkdirAll fs dst si.Perm with
            | (fs1, some e1) => some (fs1, some e1)
            | (fs1, none) =>
              match ReadDir fs1 src with
              | none => none
              | some (.error e2) => some (fs1, some e2)
              | some (.ok entries) => copyEntries (CopyDir fuel) src dst crush entries fs1
        | .ok _ =>
          if crush = false then some (fs, some (.errorf "Destination already exists"))
          else
            match MkdirAll fs dst si.Perm with
            | (fs1, some e1) => some (fs1, some e1)
            | (fs1, none) =>
              match ReadDir fs1 src with
              | none => none
              | some (.error e2) => some (fs1, some e2)
              | some (.ok entries) => copyEntries (CopyDir fuel) src dst crush entries fs1

/-- The inode a path names in a file system. -/
def get (fs : FS) (p : Path) : Option Inode := lookup fs.nodes p

/-- A component that can name a directory entry: not empty, not `.` and not `..`. -/
def properName (c : String) : Prop := c ≠ "" ∧ c ≠ "." ∧ c ≠ ".."

/-- A path made of entry names only, as `filepath.Clean` returns it. -/
def Proper (p : Path) : Prop := ∀ c ∈ p, properName c

instance (c : String) : Decidable (properName c) := by
  unfold properName
  infer_instance

instance (p : Path) : Decidable (Proper p) := by
  unfold Proper
  infer_instance

/-- Every path bound in the file system is made of entry names. -/
def ProperNames (fs : FS) : Prop := ∀ k, get fs k ≠ none → Proper k

/-- The inode is a directory. -/
def isDirO : Option Inode → Prop
  | some (.dir _ _) => True
  | _ => False

instance (o : Option Inode) : Decidable (isDirO o) :=
  match o with
  | some (.dir _ _) => isTrue trivial
  | some (.file _ _ _) => isFalse (fun h => h)
  | some .symlink => isFalse (fun h => h)
  | some (.fifo _ _) => isFalse (fun h => h)
  | none => isFalse (fun h => h)

/-- The inode is a FIFO. -/
def isFifoO : Option Inode → Prop
  | some (.fifo _ _) => True
  | _ => False

instance (o : Option Inode) : Decidable (isFifoO o) :=
  match o with
  | some (.fifo _ _) => isTrue trivial
  | some (.dir _ _) => isFalse (fun h => h)
  | some (.file _ _ _) => isFalse (fun h => h)
  | some .symlink => isFalse (fun h => h)
  | none => isFalse (fun h => h)

/-- The file system holds no FIFO. -/
def NoFifo (fs : FS) : Prop := ∀ k, ¬ isFifoO (get fs k)

/-- The inode is a regular file or a directory. -/
def isFileOrDirO : Option Inode → Prop
  | some (.dir _ _) => True
  | some (.file _ _ _) => True
  | _ => False

instance (o : Option Inode) : Decidable (isFileOrDirO o) :=
  match o with
  | some (.dir _ _) => isTrue trivial
  | some (.file _ _ _) => isTrue trivial
  | some .symlink => isFalse (fun h => h)
  | some (.fifo _ _) => isFalse (fun h => h)
  | none => isFalse (fun h => h)

/-- The entry `s ++ r` belongs to the tree below `s`: `s` and every entry on the way
down to it is a directory. -/
def Reach (fs : FS) : Path → List String → Prop
  | _, [] => True
  | s, x :: r => isDirO (get fs s) ∧ Reach fs (s ++ [x]) r

instance decidableReach (fs : FS) : (s : Path) → (r : List String) → Decidable (Reach fs s r)
  | _, [] => isTrue trivial
  | s, x :: r =>
    match (inferInstance : Decidable (isDirO (get fs s))), decidableReach fs (s ++ [x]) r with
    | isTrue h1, isTrue h2 => isTrue ⟨h1, h2⟩
    | isFalse h1, _ => isFalse (fun h => h1 h.1)
    | _, isFalse h2 => isFalse (fun h => h2 h.2)

/-- From `fs` to `fs1` only the paths in `W` changed, what was a directory is
still one, and no FIFO has appeared. -/
def Step (fs fs1 : FS) (W : Path → Prop) : Prop :=
  (∀ q, ¬ W q → get fs1 q = get fs q) ∧ (∀ q, isDirO (get fs q) → isDirO (get fs1 q)) ∧
    (∀ q, isFifoO (get fs1 q) → isFifoO (get fs q))

/-- A file system with the single directory `/a`. -/
def loopFS : FS :=
  { nodes := [([], .dir 0o755 0), (["a"], .dir 0o755 0)], umask := 0o022, now := 1 }

/-- The state of a copy of `p` into its own new subdirectory `b`: `p` is a directory
reached through directories, and nothing lies below it. -/
def Chain (fs : FS) (p : Path) : Prop :=
  Proper p ∧ (∃ pm mt, walk fs.nodes [] p = .ok (.dir pm mt)) ∧
    ∀ q, q ≠ [] → get fs (p ++ q) = none

/-- What a successful copy of the tree `s` to `d` has done, from `fs` to `fs1`. -/
structure CopySpec (fs fs1 : FS) (s d : Path) : Prop where
  /-- Paths that are neither below `d` nor above it are untouched. -/
  outside : ∀ k, ¬ d <+: k → ¬ k <+: d → get fs1 k = get fs k
  /-- Directories stay directories. -/
  dirs : ∀ k, isDirO (get fs k) → isDirO (get fs1 k)
  /-- Below `d` only the counterparts of files and directories of the tree change. -/
  inside : ∀ r, get fs1 (d ++ r) ≠ get fs (d ++ r) →
    Reach fs s r ∧ isFileOrDirO (get fs (s ++ r))
  /-- Every regular file of the tree has its copy: content, permission bits, time. -/
  files : ∀ r data pm mt, Reach fs s r → get fs (s ++ r) = some (.file data pm mt) →
    get fs1 (d ++ r) = some (.file data pm mt)
  /-- Every directory of the tree has a directory as counterpart. -/
  subdirs : ∀ r, Reach fs s r → isDirO (get fs (s ++ r)) → isDirO (get fs1 (d ++ r))

/-- What the loop over the entries `es` of `s` has done, from `fs` to `fs1`. -/
structure LoopSpec (fs fs1 : FS) (s d : Path) (es : List String) : Prop where
  outside : ∀ k, ¬ d <+: k → ¬ k <+: d → get fs1 k = get fs k
  dirs : ∀ k, isDirO (get fs k) → isDirO (get fs1 k)
  inside : ∀ x r, get fs1 (d ++ x :: r) ≠ get fs (d ++ x :: r) →
    x ∈ es ∧ Reach fs (s ++ [x]) r ∧ isFileOrDirO (get fs (s ++ x :: r))
  files : ∀ x r data pm mt, x ∈ es → Reach fs (s ++ [x]) r →
    get fs (s ++ x :: r) = some (.file data pm mt) →
    get fs1 (d ++ x :: r) = some (.file data pm mt)
  subdirs : ∀ x r, x ∈ es → Reach fs (s ++ [x]) r → isDirO (get fs (s ++ x :: r)) →
    isDirO (get fs1 (d ++ x :: r))

/-- A file system with a source tree `/s` (a file, a symbolic link, a subdirectory
with a file) and a directory `/d` that holds a file named as the link is. -/
def treeFS : FS :=
  { nodes := [([], .dir 0o755 1), (["s"], .dir 0o755 5), (["s", "f"], .file [1, 2] 0o640 3),
      (["s", "l"], .symlink), (["s", "x"], .dir 0o700 4),
      (["s", "x", "g"], .file [7] 0o600 2), (["d"], .dir 0o700 7),
      (["d", "l"], .file [9] 0o600 1)],
    umask := 0o022, now := 100 }

/-- A file system whose source tree `/s` holds the FIFO `/s/p`. -/
def fifoFS : FS :=
  { nodes := [([], .dir 0o755 1), (["s"], .dir 0o755 1), (["s", "p"], .fifo 0o644 1)],
    umask := 0o022, now := 100 }

/-- A file system in which the source `/a/b` lies inside the destination `/a`. -/
def nestFS : FS :=
  { nodes := [([], .dir 0o755 1), (["a"], .dir 0o755 1), (["a", "b"], .dir 0o755 1),
      (["a", "b", "b"], .dir 0o755 1), (["a", "b", "b", "x"], .file [1] 0o644 1)],
    umask := 0o022, now := 100 }

end utils

/-! ## Theorems on package cmdline -/

namespace cmdline

theorem fieldsAux_eq (cs cur : List Char) :
    fieldsAux cs cur
      = (((cs.splitOnP isSpace).modifyHead (fun t => cur ++ t)).filter (fun t => t ≠ [])) := by
  induction cs generalizing cur with
  | nil =>
    by_cases h : cur = [] <;> simp [fieldsAux, List.splitOnP_nil, h]
  | cons c cs ih =>
    rw [fieldsAux, List.splitOnP_cons]
    by_cases hc : isSpace c = true
    · have e : (cs.splitOnP isSpace).modifyHead (fun t => ([] : List Char) ++ t)
          = cs.splitOnP isSpace := by
        cases cs.splitOnP isSpace <;> simp [List.modifyHead]
      simp only [hc, if_true]
      rw [ih, e]
      by_cases h : cur = [] <;> simp [h, List.modifyHead]
    · have e : ((cs.splitOnP isSpace).modifyHead (List.cons c)).modifyHead (fun t => cur ++ t)
          = (cs.splitOnP isSpace).modifyHead (fun t => (cur ++ [c]) ++ t) := by
        cases cs.splitOnP isSpace <;> simp [List.modifyHead]
      simp [hc, ih, e]

theorem Fields_eq_specTokens (command : String) : Fields command = specTokens command := by
  simp [Fields, specTokens, fieldsAux_eq]
  congr 1
  cases List.splitOnP isSpace command.data <;> simp [List.modifyHead]

theorem fieldsAux_ne_nil (cs cur : List Char)
    (h : cur ≠ [] ∨ ∃ ch ∈ cs, isSpace ch = false) : fieldsAux cs cur ≠ [] := by
  induction cs generalizing cur with
  | nil =>
    rcases h with h | ⟨ch, hm, _⟩
    · simp [fieldsAux, h]
    · simp at hm
  | cons c cs ih =>
    rw [fieldsAux]
    by_cases hc : isSpace c = true
    · by_cases hcur : cur = []
      · simp only [hc, hcur, if_true]
        apply ih
        rcases h with h | ⟨ch, hm, hs⟩
        · exact absurd hcur h
        · right
          rcases List.mem_cons.1 hm with rfl | hm
          · rw [hc] at hs; cases hs
          · exact ⟨ch, hm, hs⟩
      · simp [hc, hcur]
    · simp only [hc]
      apply ih
      left; simp

theorem fieldsAux_blank (cs : List Char) (h : ∀ ch ∈ cs, isSpace ch = true) :
    fieldsAux cs [] = [] := by
  induction cs with
  | nil => simp [fieldsAux]
  | cons c cs ih =>
    rw [fieldsAux]
    simp [h c (List.mem_cons_self _ _)]
    exact ih (fun ch hm => h ch (List.mem_cons_of_mem _ hm))

theorem Run_cmd (c : CmdLine) (command : String) (env : Env) :
    (Run c command env).cmd = buildCmd c.MultiArgs command := by
  unfold Run
  simp only []
  repeat' split
  all_goals simp_all

theorem drain_nolog (env : Env) (ls : List String) (st : State) (hu : st.c.UseLog = false) :
    drain env ls st =
      ({ c := { st.c with OutBuffer :=
                  if st.c.DisplayBuffer then st.c.OutBuffer else st.c.OutBuffer ++ joinLines ls },
         console := if st.c.DisplayBuffer then st.console ++ ls else st.console,
         fileLog := st.fileLog }, none) := by
  induction ls generalizing st with
  | nil =>
    obtain ⟨⟨cm, ob, db, ma, ul⟩, con, fl⟩ := st
    cases db <;> simp [drain, joinLines]
  | cons l ls ih =>
    obtain ⟨⟨cm, ob, db, ma, ul⟩, con, fl⟩ := st
    simp only at hu
    subst hu
    rw [drain]
    cases db
    · simp [ih, joinLines, String.append_assoc]
    · simp [ih]

theorem drain_log (env : Env) (ls : List String) (st : State) (f : File)
    (hw : ∀ k, env.logWrite k = none) (hu : st.c.UseLog = true)
    (hf : st.fileLog = some f) (hc : f.closed = false) :
    drain env ls st =
      ({ c := { st.c with OutBuffer :=
                  if st.c.DisplayBuffer then st.c.OutBuffer else st.c.OutBuffer ++ joinLines ls },
         console := if st.c.DisplayBuffer then st.console ++ ls else st.console,
         fileLog := some { f with data := f.data ++ joinLines ls,
                                  writes := f.writes + ls.length } }, none) := by
  induction ls generalizing st f with
  | nil =>
    obtain ⟨⟨cm, ob, db, ma, ul⟩, con, fl⟩ := st
    simp only at hf
    subst hf
    cases db <;> simp [drain, joinLines]
  | cons l ls ih =>
    obtain ⟨⟨cm, ob, db, ma, ul⟩, con, fl⟩ := st
    obtain ⟨nm, dt, cl, wr⟩ := f
    simp only at hu hf hc
    subst hu hf hc
    rw [drain]
    cases db
    · simp only [Bool.false_eq_true, if_false, if_true, writeLog, File.Write, hw]
      rw [ih _ _ rfl rfl rfl]
      simp [joinLines, String.append_assoc, Nat.add_assoc, Nat.add_comm 1]
    · simp only [Bool.false_eq_true, if_false, if_true, writeLog, File.Write, hw]
      rw [ih _ _ rfl rfl rfl]
      simp [joinLines, String.append_assoc, Nat.add_assoc, Nat.add_comm 1]

theorem writeLog_c (env : Env) (st st2 : State) (b : String)
    (h : writeLog env st b = .ok st2) : st2.c = st.c := by
  simp only [writeLog] at h
  split at h
  · cases h
  · split at h
    · cases h
    · cases h; rfl

theorem drain_display (env : Env) (ls : List String) (st : State)
    (hd : st.c.DisplayBuffer = true) : (drain env ls st).1.c = st.c := by
  induction ls generalizing st with
  | nil => simp [drain]
  | cons l ls ih =>
    rw [drain]
    simp only [hd, if_true]
    split
    · split
      · rfl
      · rename_i st2 heq
        have e := writeLog_c _ _ _ _ heq
        rw [ih st2 (by rw [e]; exact hd), e]
    · exact ih { c := st.c, console := st.console ++ [l], fileLog := st.fileLog } hd

theorem buildCmd_some (c : CmdLine) (command : String)
    (hb : c.MultiArgs = true ∨ ∃ ch ∈ command.data, isSpace ch = false) :
    ∃ cmd, buildCmd c.MultiArgs command = some cmd := by
  rcases hb with hb | hb
  · simp [buildCmd, hb]
  · cases hm : c.MultiArgs
    · have hne : Fields command ≠ [] := by
        simp only [Fields, ne_eq, List.map_eq_nil_iff]
        exact fieldsAux_ne_nil _ _ (Or.inr hb)
      simp only [buildCmd, Bool.false_eq_true, if_false]
      cases hf : Fields command with
      | nil => exact absurd hf hne
      | cons a l => exact ⟨_, rfl⟩
    · simp [buildCmd]

theorem Run_returns_lines (c : CmdLine) (command : String) (env : Env)
    (hd : c.DisplayBuffer = false)
    (hb : c.MultiArgs = true ∨ ∃ ch ∈ command.data, isSpace ch = false)
    (hp1 : env.stdoutPipe = none) (hp2 : env.stderrPipe = none)
    (he1 : env.stdout.err = none) (he2 : env.stderr.err = none)
    (hlog : c.UseLog = false ∨
      (env.openLog = none ∧ (∀ k, env.logWrite k = none) ∧ env.stderr.lines = [])) :
    (Run c command env).outcome
      = .returned (joinLines env.stdout.lines ++ joinLines env.stderr.lines) none := by
  obtain ⟨cmd, hcmd⟩ := buildCmd_some c command hb
  obtain ⟨cm, ob, db, ma, ul⟩ := c
  simp only at hd hcmd hlog
  subst hd
  unfold Run
  simp only [hcmd, hp1, hp2, he1, he2, Option.isSome_none, Bool.false_eq_true, if_false,
    openLogStep, closeLogStep]
  rcases hlog with hl | ⟨ho, hw, hE⟩
  · subst hl
    simp [drain_nolog]
  · cases ul
    · simp [drain_nolog]
    · simp only [if_true, ho, hE]
      rw [drain_log env env.stdout.lines _ (openLog env) hw rfl rfl rfl]
      simp [File.Close, openLog, drain, joinLines]

theorem drain_env (env env1 : Env) (h : env.logWrite = env1.logWrite) (ls : List String)
    (st : State) : drain env ls st = drain env1 ls st := by
  induction ls generalizing st with
  | nil => rfl
  | cons l ls ih => simp only [drain, writeLog, File.Write, h, ih]

theorem Run_start_irrelevant (c : CmdLine) (command : String) (env : Env) (e : Error) :
    Run c command { env with start := some e } = Run c command { env with start := none } := by
  have hd : drain { env with start := some e } = drain { env with start := none } := by
    funext ls st
    exact drain_env { env with start := some e } { env with start := none } rfl ls st
  have ho : openLog { env with start := some e } = openLog { env with start := none } := rfl
  unfold Run
  simp only [hd, openLogStep, ho]
  cases env.stderrPipe <;> rfl

theorem openLogStep_c (env : Env) (st st1 : State) (h : openLogStep env st = .ok st1) :
    st1.c = st.c := by
  simp only [openLogStep] at h
  split at h
  · split at h
    · cases h
    · cases h; rfl
  · cases h; rfl

theorem closeLogStep_c (st : State) : (closeLogStep st).c = st.c := by
  simp only [closeLogStep]
  repeat' split
  all_goals rfl

theorem drain_display_eq (env : Env) (ls : List String) (st st1 : State) (e : Option Error)
    (hd : st.c.DisplayBuffer = true) (h : drain env ls st = (st1, e)) : st1.c = st.c := by
  have := drain_display env ls st hd
  rw [h] at this
  exact this

theorem Run_display_empty (c : CmdLine) (command : String) (env : Env) (out : String)
    (err : Option Error) (hd : c.DisplayBuffer = true)
    (h : (Run c command env).outcome = .returned out err) : out = "" := by
  unfold Run at h
  simp only [] at h
  split at h
  · cases h
  · split at h
    · cases h; rfl
    · split at h
      · cases h; rfl
      · split at h
        · cases h; rfl
        · split at h
          · cases h
          · rename_i st1 hopen
            have h1 := openLogStep_c _ _ _ hopen
            split at h
            · cases h
            · rename_i st2 hdr
              have h2 := drain_display_eq _ _ _ _ _ (by rw [h1]; exact hd) hdr
              have h3 := closeLogStep_c st2
              split at h
              · cases h
                rw [h3, h2, h1]
              · split at h
                · cases h
                · rename_i st4 hdr4
                  have h4 := drain_display_eq _ _ _ _ _
                    (by rw [h3, h2, h1]; exact hd) hdr4
                  split at h <;> cases h <;> rw [h4, h3, h2, h1]

/-- C4 (code defect): the error of `cmd.Start()` never reaches the caller.  The test
on line 69 reads `err`, which is nil there, so whatever `Start` answers the call
goes on as if the child had started; for a program that does not exist `Run`
returns the read error of the closed pipe, not the start error. -/
theorem Run_start_error_lost :
    (∀ (c : CmdLine) (command : String) (env : Env) (e : Error),
      Run c command { env with start := some e } = Run c command { env with start := none }) ∧
    (Run (NewCmdLine false) "nosuchprog" startFails).outcome
      = .returned "" (some "read |0: file already closed") ∧
    startFails.start = some "exec: \"nosuchprog\": executable file not found in $PATH" :=
  ⟨Run_start_irrelevant, by decide, rfl⟩

/-- C5 (code defect): with `UseLog`, when the pipes and the log file work and the
child writes at least one line on standard error, `Run` does not return: the log
file was closed after standard output was drained, the write of the first line of
standard error fails with "file already closed" and `log.Fatalln` ends the
process.  The log file holds the lines of standard output only. -/
theorem Run_log_closed_before_stderr (c : CmdLine) (command : String) (env : Env)
    (l : String) (rest : List String)
    (hu : c.UseLog = true)
    (hb : c.MultiArgs = true ∨ ∃ ch ∈ command.data, isSpace ch = false)
    (hp1 : env.stdoutPipe = none) (hp2 : env.stderrPipe = none)
    (ho : env.openLog = none) (hw : ∀ k, env.logWrite k = none)
    (he : env.stdout.err = none) (hl : env.stderr.lines = l :: rest) :
    (Run c command env).outcome = .fatal (errClosed (logName env)) ∧
    (Run c command env).state.fileLog
      = some { name := logName env, data := env.logExisting ++ joinLines env.stdout.lines,
               closed := true, writes := env.stdout.lines.length } := by
  obtain ⟨cmd, hcmd⟩ := buildCmd_some c command hb
  obtain ⟨cm, ob, db, ma, ul⟩ := c
  simp only at hu hcmd
  subst hu
  unfold Run
  simp only [hcmd, hp1, hp2, he, hl, ho, Option.isSome_none, Bool.false_eq_true, if_false,
    if_true, openLogStep]
  rw [drain_log env env.stdout.lines _ (openLog env) hw rfl rfl rfl]
  cases db <;> simp [closeLogStep, File.Close, openLog, drain, writeLog, File.Write]

/-- Witness for C5: the child prints `out` and then `oops` on standard error. -/
theorem Run_log_closed_before_stderr_witness :
    (Run { NewCmdLine false with UseLog := true } "ls" (quietEnv ["out"] ["oops"])).outcome
      = .fatal "write /tmp/mgo_cmd_0.log: file already closed" ∧
    (Run { NewCmdLine false with UseLog := true } "ls"
        (quietEnv ["out"] ["oops"])).state.fileLog
      = some { name := "/tmp/mgo_cmd_0.log", data := "out\n", closed := true, writes := 1 } :=
  Run_log_closed_before_stderr { NewCmdLine false with UseLog := true } "ls"
    (quietEnv ["out"] ["oops"]) "oops" [] rfl (Or.inr ⟨'l', by decide, by decide⟩)
    rfl rfl rfl (fun _ => rfl) rfl rfl

/-- C6 as stated fails: with `UseLog` and a log file that cannot be opened, `Run`
does not return `hello\n` with a nil error; `log.Fatalln` ends the process. -/
theorem Run_log_open_failure_exits :
    (NewCmdLine false).DisplayBuffer = false ∧
    logDenied.stdout = { lines := ["hello"], err := none } ∧
    logDenied.stderr = { lines := [], err := none } ∧
    (Run { NewCmdLine false with UseLog := true } "echo hello" logDenied).outcome
      = .fatal "open /tmp/mgo_cmd_0.log: permission denied" ∧
    (Run { NewCmdLine false with UseLog := true } "echo hello" logDenied).outcome
      ≠ .returned "hello\n" none := by
  decide

/-- C6 (amended): when the command can be built and both pipes are created, the
streams end without read error, and either `UseLog` is off or the log file opens,
takes every write and standard error is empty, then with `DisplayBuffer` false `Run`
returns the lines of standard output and then those of standard error, each followed
by a newline, with a nil error, whatever `OutBuffer` held before.  With
`DisplayBuffer` true every text `Run` returns is empty. -/
theorem Run_returns_lines_no_leak (c : CmdLine) (command : String) (env : Env)
    (hd : c.DisplayBuffer = false)
    (hb : c.MultiArgs = true ∨ ∃ ch ∈ command.data, isSpace ch = false)
    (hp1 : env.stdoutPipe = none) (hp2 : env.stderrPipe = none)
    (he1 : env.stdout.err = none) (he2 : env.stderr.err = none)
    (hlog : c.UseLog = false ∨
      (env.openLog = none ∧ (∀ k, env.logWrite k = none) ∧ env.stderr.lines = [])) :
    (∀ previous : String,
      (Run { c with OutBuffer := previous } command env).outcome
        = .returned (joinLines env.stdout.lines ++ joinLines env.stderr.lines) none) ∧
    (∀ (c1 : CmdLine) (command1 : String) (env1 : Env) (out : String) (err : Option Error),
      c1.DisplayBuffer = true →
      (Run c1 command1 env1).outcome = .returned out err → out = "") :=
  ⟨fun previous => Run_returns_lines { c with OutBuffer := previous } command env hd hb hp1 hp2
      he1 he2 hlog,
   fun c1 command1 env1 out err h1 h2 => Run_display_empty c1 command1 env1 out err h1 h2⟩

/-- Witness for C6: a reused runner whose buffer still holds `old`. -/
theorem Run_returns_lines_no_leak_witness :
    (Run { NewCmdLine false with OutBuffer := "old" } "echo hello"
        (quietEnv ["hello"] ["warn"])).outcome = .returned "hello\nwarn\n" none :=
  (Run_returns_lines_no_leak (NewCmdLine false) "echo hello" (quietEnv ["hello"] ["warn"])
    rfl (Or.inr ⟨'e', by decide, by decide⟩) rfl rfl rfl rfl (Or.inl rfl)).1 "old"

theorem Run_started (c : CmdLine) (command : String) (env : Env)
    (hb : c.MultiArgs = true ∨ ∃ ch ∈ command.data, isSpace ch = false)
    (hp1 : env.stdoutPipe = none) (hp2 : env.stderrPipe = none) :
    (Run c command env).started = true := by
  obtain ⟨cmd, hcmd⟩ := buildCmd_some c command hb
  unfold Run
  simp only [hcmd, hp1, hp2]
  repeat' split
  all_goals rfl

/-- C7: for a command with a character that is not white space, `Run` with `MultiArgs`
false builds the command whose program is the first token of the command split on
white space and whose arguments are the other tokens, in order; quotes are ordinary
characters.  With `MultiArgs` true it builds `sh -c` with the whole command string
as the one script argument.  When both pipes are created, `cmd.Start()` is called on
the command built. -/
theorem Run_builds_command (c : CmdLine) (command : String) (env : Env)
    (h : ∃ ch ∈ command.data, isSpace ch = false) :
    (c.MultiArgs = false →
      ∃ name args, specTokens command = name :: args ∧
        (Run c command env).cmd = some { Name := name, Args := args }) ∧
    (c.MultiArgs = true →
      (Run c command env).cmd = some { Name := "sh", Args := ["-c", command] }) ∧
    (env.stdoutPipe = none → env.stderrPipe = none → (Run c command env).started = true) ∧
    specTokens "echo \"a b\"" = ["echo", "\"a", "b\""] ∧
    (Run (NewCmdLine false) "echo \"a b\"" env).cmd
      = some { Name := "echo", Args := ["\"a", "b\""] } ∧
    (Run (UseMultiArgs (NewCmdLine false)) "echo \"a b\"" env).cmd
      = some { Name := "sh", Args := ["-c", "echo \"a b\""] } := by
  refine ⟨fun hm => ?_, fun hm => ?_, fun h1 h2 => Run_started c command env (Or.inr h) h1 h2,
    by decide, ?_, ?_⟩
  · rw [Run_cmd, hm, ← Fields_eq_specTokens]
    have hne : Fields command ≠ [] := by
      simp only [Fields, ne_eq, List.map_eq_nil_iff]
      exact fieldsAux_ne_nil _ _ (Or.inr h)
    cases hf : Fields command with
    | nil => exact absurd hf hne
    | cons a l => exact ⟨a, l, rfl, by simp [buildCmd, hf]⟩
  · rw [Run_cmd, hm]; rfl
  · rw [Run_cmd]; decide
  · rw [Run_cmd]; decide

/-- Witness for C7: the command `ls -l /tmp`. -/
theorem Run_builds_command_witness :
    (Run (NewCmdLine false) "ls -l /tmp" (quietEnv [] [])).cmd
      = some { Name := "ls", Args := ["-l", "/tmp"] } := by
  obtain ⟨name, args, h1, h2⟩ :=
    (Run_builds_command (NewCmdLine false) "ls -l /tmp" (quietEnv [] [])
      ⟨'l', by decide, by decide⟩).1 rfl
  have h3 : specTokens "ls -l /tmp" = ["ls", "-l", "/tmp"] := by decide
  rw [h3] at h1
  cases h1
  exact h2

/-- C10 (code defect): with `MultiArgs` false a command without any token, the empty
string or white space only, makes `Run` index the empty token list: the call ends in
the run-time panic `index out of range`, and no error is returned. -/
theorem Run_blank_command_panics (c : CmdLine) (command : String) (env : Env)
    (hm : c.MultiArgs = false) (hb : ∀ ch ∈ command.data, isSpace ch = true) :
    Fields command = [] ∧
    (Run c command env).outcome
      = .panicked "runtime error: index out of range [0] with length 0" ∧
    ∀ out err, (Run c command env).outcome ≠ .returned out err := by
  have hf : Fields command = [] := by simp [Fields, fieldsAux_blank _ hb]
  have ho : (Run c command env).outcome
      = .panicked "runtime error: index out of range [0] with length 0" := by
    unfold Run
    simp [buildCmd, hm, hf]
  refine ⟨hf, ho, fun out err h => ?_⟩
  rw [ho] at h
  cases h

/-- Witness for C10: the empty command. -/
theorem Run_blank_command_panics_witness :
    (Run (NewCmdLine false) "" (quietEnv [] [])).outcome
      = .panicked "runtime error: index out of range [0] with length 0" :=
  (Run_blank_command_panics (NewCmdLine false) "" (quietEnv [] []) rfl
    (by intro ch h; cases h)).2.1

end cmdline

/-! ## Theorems on package debugger -/

namespace debugger

theorem step_debug (d : Debugger) (ev : Call × Int) : (step d ev).debug = d.debug := by
  obtain ⟨c, t⟩ := ev
  cases c <;> simp only [step, Start, End, EndGet] <;> split <;> rfl

theorem run_debug (d : Debugger) (evs : List (Call × Int)) : (run d evs).debug = d.debug := by
  induction evs generalizing d with
  | nil => rfl
  | cons ev evs ih =>
    simp only [run, List.foldl_cons] at ih ⊢
    rw [ih, step_debug]

theorem run_append (d : Debugger) (a b : List (Call × Int)) :
    run d (a ++ b) = run (run d a) b := by
  simp [run, List.foldl_append]

theorem step_timeStart_other (d : Debugger) (ev : Call × Int) (k : String)
    (h : ev.1 ≠ .callStart k) : (step d ev).timeStart k = d.timeStart k := by
  obtain ⟨c, t⟩ := ev
  cases c with
  | callStart k1 =>
    have hk : k ≠ k1 := fun e => h (by rw [e])
    simp only [step, Start]
    split
    · simp [assign, hk]
    · rfl
  | callEnd k1 => simp only [step, End]; split <;> rfl
  | callEndGet k1 => simp only [step, EndGet]; split <;> rfl

theorem run_timeStart_other (d : Debugger) (evs : List (Call × Int)) (k : String)
    (h : ∀ ev ∈ evs, ev.1 ≠ .callStart k) : (run d evs).timeStart k = d.timeStart k := by
  induction evs generalizing d with
  | nil => rfl
  | cons ev evs ih =>
    simp only [run, List.foldl_cons] at ih ⊢
    rw [ih _ (fun e he => h e (List.mem_cons_of_mem _ he)),
      step_timeStart_other _ _ _ (h ev (List.mem_cons_self _ _))]

theorem run_timeStart_own (d : Debugger) (a b : List (Call × Int)) (k : String) (ts : Int)
    (hd : d.debug = 1) (hb : ∀ ev ∈ b, ev.1 ≠ .callStart k) :
    (run d (a ++ (.callStart k, ts) :: b)).timeStart k = .mono ts := by
  have e : a ++ (Call.callStart k, ts) :: b = a ++ [(Call.callStart k, ts)] ++ b := by simp
  rw [e, run_append, run_timeStart_other _ _ _ hb, run_append]
  have hd1 : (run d a).debug = 1 := by rw [run_debug, hd]
  simp only [run] at hd1 ⊢
  simp [step, Start, hd1, assign]

theorem EndGet_of_start (d : Debugger) (k : String) (ts t : Int) (hd : d.debug = 1)
    (hs : d.timeStart k = .mono ts) (h0 : ts ≤ t) (h1 : t - ts ≤ maxDuration) :
    (EndGet d k t).2 = t - ts := by
  have h2 : ¬ (t - ts > maxDuration) := not_lt.2 h1
  have h3 : ¬ (t - ts < minDuration) := by
    have : (0 : Int) ≤ t - ts := by omega
    simp only [minDuration]; omega
  simp [EndGet, hd, assign, hs, Time.Sub, h2, h3]

/-- C9: the calls are atomic steps in the order the mutex admits them, `debug` is 1
and the clock never goes back and reads between 0 and `maxDuration` nanoseconds.
`EndGet(k)` called at time `t`, after a `Start(k)` at time `ts` that no other
`Start(k)` follows, returns `t - ts`; the value is not negative, and it is the value
the calls made with the key `k` alone give: the calls for other keys change
nothing for `k`. -/
theorem EndGet_measures_own_start (d : Debugger) (a b : List (Call × Int)) (k : String)
    (ts t : Int) (hd : d.debug = 1)
    (hb : ∀ ev ∈ b, ev.1 ≠ .callStart k)
    (hclock : List.Pairwise (fun x y => x ≤ y)
      ((a ++ (Call.callStart k, ts) :: b ++ [(Call.callEndGet k, t)]).map Prod.snd))
    (hlo : 0 ≤ ts) (hhi : t ≤ maxDuration) :
    (EndGet (run d (a ++ (.callStart k, ts) :: b)) k t).2 = t - ts ∧
    0 ≤ (EndGet (run d (a ++ (.callStart k, ts) :: b)) k t).2 ∧
    (EndGet (run d (a ++ (.callStart k, ts) :: b)) k t).2
      = (EndGet (run d ((a ++ (.callStart k, ts) :: b).filter
          (fun ev => decide (ev.1.key = k)))) k t).2 ∧
    (run d (a ++ (.callStart k, ts) :: b)).timeStart k = .mono ts := by
  have hle : ts ≤ t := by
    simp only [List.map_append, List.map_cons, List.map_nil, List.append_assoc,
      List.cons_append, List.pairwise_append, List.pairwise_cons] at hclock
    exact hclock.2.1.1 t (by simp)
  have hdur : t - ts ≤ maxDuration := by omega
  have hown := run_timeStart_own d a b k ts hd hb
  have hdbg : (run d (a ++ (.callStart k, ts) :: b)).debug = 1 := by rw [run_debug, hd]
  have hval := EndGet_of_start _ k ts t hdbg hown hle hdur
  have hfilter : (a ++ (Call.callStart k, ts) :: b).filter (fun ev => decide (ev.1.key = k))
      = a.filter (fun ev => decide (ev.1.key = k)) ++ (Call.callStart k, ts)
          :: b.filter (fun ev => decide (ev.1.key = k)) := by
    simp [List.filter_append, List.filter_cons, Call.key]
  have hown2 := run_timeStart_own d (a.filter (fun ev => decide (ev.1.key = k)))
    (b.filter (fun ev => decide (ev.1.key = k))) k ts hd
    (fun ev he => hb ev (List.mem_of_mem_filter he))
  have hdbg2 : (run d ((a ++ (Call.callStart k, ts) :: b).filter
      (fun ev => decide (ev.1.key = k)))).debug = 1 := by rw [run_debug, hd]
  refine ⟨hval, ?_, ?_, hown⟩
  · rw [hval]; omega
  · rw [hval, EndGet_of_start _ k ts t hdbg2 (by rw [hfilter]; exact hown2) hle hdur]

/-- Witness for C9: two callers with the keys `a` and `b`, interleaved. -/
theorem EndGet_measures_own_start_witness :
    (EndGet (run (InitDebugger 1)
      ([(Call.callStart "a", 1)] ++ (Call.callStart "b", 2) :: [(Call.callEnd "a", 3)]))
        "b" 5).2 = 5 - 2 :=
  (EndGet_measures_own_start (InitDebugger 1) [(Call.callStart "a", 1)]
    [(Call.callEnd "a", 3)] "b" 2 5
    rfl (by decide) (by decide) (by decide) (by decide)).1

end debugger

/-! ## Theorems on package utils -/

namespace utils

/-! ### Paths -/

theorem cleanStep_proper (acc : Path) (c : String) (h : properName c) :
    cleanStep acc c = acc ++ [c] := by
  obtain ⟨h1, h2, h3⟩ := h
  simp [cleanStep, h1, h2, h3]

theorem foldl_cleanStep_proper (p acc : Path) (h : Proper p) :
    p.foldl cleanStep acc = acc ++ p := by
  induction p generalizing acc with
  | nil => simp
  | cons c p ih =>
    rw [List.foldl_cons, cleanStep_proper _ _ (h c (List.mem_cons_self _ _)),
      ih _ (fun x hx => h x (List.mem_cons_of_mem _ hx))]
    simp

theorem Clean_of_proper (p : Path) (h : Proper p) : Clean p = p := by
  simp [Clean, foldl_cleanStep_proper p [] h]

theorem proper_cleanStep (acc : Path) (c : String) (h : Proper acc) :
    Proper (cleanStep acc c) := by
  unfold cleanStep
  split
  · exact h
  · split
    · exact fun x hx => h x (List.mem_of_mem_dropLast hx)
    · rename_i h1 h2
      intro x hx
      rcases List.mem_append.1 hx with hx | hx
      · exact h x hx
      · rw [List.mem_singleton] at hx
        subst hx
        exact ⟨fun e => h1 (Or.inl e), fun e => h1 (Or.inr e), h2⟩

theorem proper_foldl (p acc : Path) (h : Proper acc) : Proper (p.foldl cleanStep acc) := by
  induction p generalizing acc with
  | nil => exact h
  | cons c p ih => exact ih _ (proper_cleanStep _ _ h)

theorem proper_Clean (p : Path) : Proper (Clean p) :=
  proper_foldl p [] (fun _ h => by cases h)

theorem Clean_Clean (p : Path) : Clean (Clean p) = Clean p :=
  Clean_of_proper _ (proper_Clean p)

theorem proper_concat (p : Path) (x : String) (hp : Proper p) (hx : properName x) :
    Proper (p ++ [x]) := by
  intro c hc
  rcases List.mem_append.1 hc with hc | hc
  · exact hp c hc
  · rw [List.mem_singleton] at hc
    subst hc
    exact hx

theorem Join_proper (p : Path) (x : String) (hp : Proper p) (hx : properName x) :
    Join p x = p ++ [x] :=
  Clean_of_proper _ (proper_concat p x hp hx)

theorem proper_of_init (p q : Path) (h : p <+: q) (hq : Proper q) : Proper p :=
  fun c hc => hq c (h.subset hc)

/-! ### Bindings -/

theorem lookup_filter_ne (nodes : List (Path × Inode)) (p q : Path) (h : q ≠ p) :
    lookup (nodes.filter (fun kv => !decide (kv.1 = p))) q = lookup nodes q := by
  induction nodes with
  | nil => rfl
  | cons kv nodes ih =>
    obtain ⟨k, v⟩ := kv
    by_cases hk : k = p
    · subst hk
      have : k ≠ q := fun e => h e.symm
      simp [List.filter_cons, lookup, this, ih]
    · by_cases hq : k = q
      · subst hq
        simp [List.filter_cons, lookup, hk]
      · simp [List.filter_cons, lookup, hk, hq, ih]

theorem lookup_bind (nodes : List (Path × Inode)) (p q : Path) (v : Inode) :
    lookup (bind nodes p v) q = if q = p then some v else lookup nodes q := by
  by_cases h : q = p
  · subst h; simp [bind, lookup]
  · have : p ≠ q := fun e => h e.symm
    simp [bind, lookup, this, h, lookup_filter_ne _ _ _ h]

theorem lookup_some_iff_mem (nodes : List (Path × Inode)) (k : Path) :
    lookup nodes k ≠ none ↔ ∃ v, (k, v) ∈ nodes := by
  induction nodes with
  | nil => simp [lookup]
  | cons kv nodes ih =>
    obtain ⟨k1, v1⟩ := kv
    by_cases hk : k1 = k
    · subst hk
      simp [lookup]
    · have hk2 : k ≠ k1 := fun e => hk e.symm
      simp [lookup, hk, hk2, ih]

/-! ### Path resolution -/

theorem walk_ok_lookup (nodes : List (Path × Inode)) (cur : Path) (r : List String)
    (v : Inode) (h : walk nodes cur r = .ok v) : lookup nodes (cur ++ r) = some v := by
  induction r generalizing cur with
  | nil =>
    simp only [walk] at h
    split at h
    · cases h; simpa
    · cases h
  | cons c r ih =>
    simp only [walk] at h
    split at h
    · have := ih _ h
      simpa using this
    all_goals cases h

theorem walk_concat (nodes : List (Path × Inode)) (cur : Path) (r : List String) (x : String) :
    walk nodes cur (r ++ [x]) =
      match walk nodes cur r with
      | .ok (.dir _ _) =>
        match lookup nodes (cur ++ r ++ [x]) with
        | some v => .ok v
        | none => .error .ENOENT
      | .ok (.file _ _ _) => .error .ENOTDIR
      | .ok (.fifo _ _) => .error .ENOTDIR
      | .ok .symlink => .error .ENOENT
      | .error e => .error e := by
  induction r generalizing cur with
  | nil =>
    simp only [List.nil_append, walk, List.append_nil]
    cases h : lookup nodes cur with
    | none => rfl
    | some v => cases v <;> rfl
  | cons c r ih =>
    rw [List.cons_append, walk.eq_2, walk.eq_2]
    cases h : lookup nodes cur with
    | none => rfl
    | some v =>
      cases v with
      | file _ _ _ => rfl
      | symlink => rfl
      | fifo _ _ => rfl
      | dir _ _ =>
        simp only []
        rw [ih]
        simp

theorem walk_congr (n1 n2 : List (Path × Inode)) (cur : Path) (r : List String)
    (h : ∀ r1, r1 <+: r → lookup n1 (cur ++ r1) = lookup n2 (cur ++ r1)) :
    walk n1 cur r = walk n2 cur r := by
  induction r generalizing cur with
  | nil =>
    have := h [] (List.prefix_refl _)
    simp only [List.append_nil] at this
    simp [walk, this]
  | cons c r ih =>
    have h0 := h [] List.nil_prefix
    simp only [List.append_nil] at h0
    simp only [walk, h0]
    rw [ih]
    intro r1 hr1
    have := h (c :: r1) (by simpa [List.cons_prefix_cons] using hr1)
    simpa using this

/-! ### The system calls as steps -/

theorem Step.refl (fs : FS) (W : Path → Prop) : Step fs fs W :=
  ⟨fun _ _ => rfl, fun _ h => h, fun _ h => h⟩

theorem Step.trans {fs fs1 fs2 : FS} {W1 W2 W : Path → Prop}
    (h1 : Step fs fs1 W1) (h2 : Step fs1 fs2 W2)
    (hw1 : ∀ q, W1 q → W q) (hw2 : ∀ q, W2 q → W q) : Step fs fs2 W :=
  ⟨fun q hq => by
      rw [h2.1 q (fun h => hq (hw2 q h)), h1.1 q (fun h => hq (hw1 q h))],
   fun q hq => h2.2.1 q (h1.2.1 q hq), fun q hq => h1.2.2 q (h2.2.2 q hq)⟩

theorem Step.mono {fs fs1 : FS} {W1 W : Path → Prop} (h1 : Step fs fs1 W1)
    (hw : ∀ q, W1 q → W q) : Step fs fs1 W :=
  ⟨fun q hq => h1.1 q (fun h => hq (hw q h)), h1.2⟩

theorem get_bind (fs : FS) (p q : Path) (v : Inode) :
    get { fs with nodes := bind fs.nodes p v } q = if q = p then some v else get fs q := by
  simp [get, lookup_bind]

theorem Step_bind (fs : FS) (p : Path) (v : Inode)
    (h : isDirO (get fs p) → isDirO (some v)) (hf : isFifoO (some v) → isFifoO (get fs p)) :
    Step fs { fs with nodes := bind fs.nodes p v } (fun q => q = p) := by
  refine ⟨fun q hq => ?_, fun q hq => ?_, fun q hq => ?_⟩
  · rw [get_bind, if_neg hq]
  · rw [get_bind]
    by_cases e : q = p
    · rw [if_pos e]; subst e; exact h hq
    · rw [if_neg e]; exact hq
  · rw [get_bind] at hq
    by_cases e : q = p
    · rw [if_pos e] at hq; subst e; exact hf hq
    · rw [if_neg e] at hq; exact hq

theorem get_addEntry (fs : FS) (p q : Path) (v : Inode) (pperm : Nat) :
    get (addEntry fs p v pperm) q =
      if q = p.dropLast then some (.dir pperm fs.now) else if q = p then some v else get fs q := by
  simp [get, addEntry, lookup_bind]

theorem Step_addEntry (fs : FS) (p : Path) (v : Inode) (pperm : Nat)
    (h : get fs p = none) (hv : ¬ isFifoO (some v)) :
    Step fs (addEntry fs p v pperm) (fun q => q = p ∨ q = p.dropLast) := by
  refine ⟨fun q hq => ?_, fun q hq => ?_, fun q hq => ?_⟩
  · rw [get_addEntry, if_neg (fun e => hq (Or.inr e)), if_neg (fun e => hq (Or.inl e))]
  · rw [get_addEntry]
    by_cases e : q = p.dropLast
    · rw [if_pos e]; trivial
    · rw [if_neg e]
      by_cases e2 : q = p
      · subst e2; rw [h] at hq; cases hq
      · rw [if_neg e2]; exact hq
  · rw [get_addEntry] at hq
    by_cases e : q = p.dropLast
    · rw [if_pos e] at hq; cases hq
    · rw [if_neg e] at hq
      by_cases e2 : q = p
      · rw [if_pos e2] at hq; exact absurd hq hv
      · rw [if_neg e2] at hq; exact hq

theorem Mkdir_step (fs fs1 : FS) (p : Path) (perm : Nat) (e : Option GoError)
    (h : Mkdir fs p perm = (fs1, e)) :
    Step fs fs1 (fun q => q = p ∨ q = p.dropLast) ∧ (e = none → isDirO (get fs1 p)) := by
  unfold Mkdir at h
  split at h
  · cases h; exact ⟨Step.refl _ _, fun h => by cases h⟩
  · rename_i hp
    split at h
    · cases h; exact ⟨Step.refl _ _, fun h => by cases h⟩
    split at h
    · cases h; exact ⟨Step.refl _ _, fun h => by cases h⟩
    · cases h; exact ⟨Step.refl _ _, fun h => by cases h⟩
    · cases h; exact ⟨Step.refl _ _, fun h => by cases h⟩
    · cases h; exact ⟨Step.refl _ _, fun h => by cases h⟩
    · split at h
      · cases h; exact ⟨Step.refl _ _, fun h => by cases h⟩
      · rename_i hnone
        cases h
        refine ⟨Step_addEntry _ _ _ _ hnone (fun h => h), fun _ => ?_⟩
        rw [get_addEntry]
        have hne : p ≠ p.dropLast := by
          intro e
          have := congrArg List.length e
          rw [List.length_dropLast] at this
          have : 0 < p.length := List.length_pos.2 hp
          omega
        rw [if_neg hne, if_pos rfl]
        trivial

theorem Lstat_ok_get (fs : FS) (p : Path) (v : Inode) (h : Lstat fs p = .ok v) :
    get fs p = some v := by
  unfold Lstat at h
  split at h
  · cases h
  split at h
  · rename_i v1 hw
    cases h
    simpa using walk_ok_lookup _ _ _ _ hw
  · cases h

theorem Stat_ok_get (fs : FS) (p : Path) (v : Inode) (h : Stat fs p = .ok v) :
    get fs p = some v := by
  unfold Stat at h
  split at h
  · cases h
  split at h
  · cases h
  · rename_i v1 _ hw
    cases h
    simpa using walk_ok_lookup _ _ _ _ hw
  · cases h

theorem mkdirLast_step (fs fs1 : FS) (p : Path) (perm : Nat) (e : Option GoError)
    (h : mkdirLast fs p perm = (fs1, e)) :
    Step fs fs1 (fun q => q = p ∨ q = p.dropLast) ∧ (e = none → isDirO (get fs1 p)) := by
  unfold mkdirLast at h
  split at h
  · rename_i fs2 hm
    cases h
    exact Mkdir_step _ _ _ _ _ hm
  · rename_i fs2 e2 hm
    have hs := (Mkdir_step _ _ _ _ _ hm).1
    split at h
    · rename_i hl
      cases h
      refine ⟨hs, fun _ => ?_⟩
      rw [Lstat_ok_get _ _ _ hl]
      trivial
    · cases h
      exact ⟨hs, fun h => by cases h⟩

theorem dropLast_isInit (p : Path) : p.dropLast <+: p := by
  rw [List.dropLast_eq_take]
  exact List.take_prefix _ _

theorem mkdirAllRev_step (perm : Nat) (rp : List String) (fs fs1 : FS) (e : Option GoError)
    (h : mkdirAllRev perm rp fs = (fs1, e)) :
    Step fs fs1 (fun q => q <+: rp.reverse) ∧ (e = none → isDirO (get fs1 rp.reverse)) := by
  induction rp generalizing fs fs1 e with
  | nil =>
    simp only [mkdirAllRev] at h
    split at h
    · rename_i hs
      cases h
      refine ⟨Step.refl _ _, fun _ => ?_⟩
      rw [List.reverse_nil, Stat_ok_get _ _ _ hs]; trivial
    · cases h; exact ⟨Step.refl _ _, fun h => by cases h⟩
    · have := mkdirLast_step _ _ _ _ _ h
      refine ⟨this.1.mono ?_, this.2⟩
      rintro q (rfl | rfl) <;> simp
  | cons c parent ih =>
    simp only [mkdirAllRev] at h
    split at h
    · rename_i hs
      cases h
      refine ⟨Step.refl _ _, fun _ => ?_⟩
      rw [Stat_ok_get _ _ _ hs]; trivial
    · cases h; exact ⟨Step.refl _ _, fun h => by cases h⟩
    · have hw : ∀ q, (q = (c :: parent).reverse ∨ q = (c :: parent).reverse.dropLast)
          → q <+: (c :: parent).reverse := by
        rintro q (rfl | rfl)
        · exact List.prefix_refl _
        · exact dropLast_isInit _
      split at h
      · have := mkdirLast_step _ _ _ _ _ h
        exact ⟨this.1.mono hw, this.2⟩
      · split at h
        · rename_i fs2 e1 hrec
          cases h
          have := (ih _ _ _ hrec).1
          refine ⟨this.mono ?_, fun h => by cases h⟩
          intro q hq
          exact hq.trans (by simp)
        · rename_i fs2 hrec
          have h1 := (ih _ _ _ hrec).1
          have h2 := mkdirLast_step _ _ _ _ _ h
          refine ⟨h1.trans h2.1 ?_ hw, h2.2⟩
          intro q hq
          exact hq.trans (by simp)

theorem MkdirAll_step (fs fs1 : FS) (p : Path) (perm : Nat) (e : Option GoError)
    (h : MkdirAll fs p perm = (fs1, e)) :
    Step fs fs1 (fun q => q <+: p) ∧ (e = none → isDirO (get fs1 p)) := by
  have := mkdirAllRev_step perm p.reverse fs fs1 e h
  simpa using this

theorem ne_dropLast (p : Path) (hp : p ≠ []) : p ≠ p.dropLast := by
  intro e
  have h1 := congrArg List.length e
  rw [List.length_dropLast] at h1
  have h2 : 0 < p.length := List.length_pos.2 hp
  omega

theorem Create_step (fs fs1 : FS) (p : Path) (e : Option GoError)
    (h : Create fs p = (fs1, e)) :
    Step fs fs1 (fun q => q = p ∨ q = p.dropLast) ∧
      (e = none → (∃ perm mt, get fs1 p = some (.file [] perm mt)) ∨ isFifoO (get fs1 p)) := by
  unfold Create at h
  split at h
  · cases h; exact ⟨Step.refl _ _, fun h => by cases h⟩
  · rename_i hp
    split at h
    · cases h; exact ⟨Step.refl _ _, fun h => by cases h⟩
    split at h
    · cases h; exact ⟨Step.refl _ _, fun h => by cases h⟩
    · cases h; exact ⟨Step.refl _ _, fun h => by cases h⟩
    · cases h; exact ⟨Step.refl _ _, fun h => by cases h⟩
    · cases h; exact ⟨Step.refl _ _, fun h => by cases h⟩
    · split at h
      · cases h; exact ⟨Step.refl _ _, fun h => by cases h⟩
      · cases h; exact ⟨Step.refl _ _, fun h => by cases h⟩
      · rename_i hfifo
        cases h
        refine ⟨Step.refl _ _, fun _ => Or.inr ?_⟩
        rw [get, hfifo]
        trivial
      · rename_i hfile
        cases h
        refine ⟨(Step_bind fs p _ ?_ (fun h => by cases h)).mono (fun q hq => Or.inl hq),
          fun _ => Or.inl ?_⟩
        · intro hd
          rw [get, hfile] at hd
          cases hd
        · exact ⟨_, _, by rw [get_bind, if_pos rfl]⟩
      · rename_i hnone
        cases h
        refine ⟨Step_addEntry _ _ _ _ hnone (fun h => h), fun _ => Or.inl ?_⟩
        exact ⟨_, _, by rw [get_addEntry, if_neg (ne_dropLast p hp), if_pos rfl]⟩

theorem ioCopy_step (fs fs1 : FS) (src dst : Path) (e : Option GoError)
    (h : ioCopy fs src dst = some (fs1, e)) :
    Step fs fs1 (fun q => q = dst) ∧
      (e = none → ∃ data perm mt, get fs src = some (.file data perm mt) ∧
        ((∃ perm1 mt1, get fs1 dst = some (.file data perm1 mt1)) ∨ isFifoO (get fs1 dst))) := by
  unfold ioCopy at h
  split at h
  · rename_i data perm mt hsrc
    split at h
    · rename_i hdst
      cases h
      refine ⟨Step_bind fs dst _ ?_ (fun h => by cases h), fun _ => ?_⟩
      · intro hd
        rw [get, hdst] at hd
        cases hd
      · exact ⟨data, perm, mt, hsrc, Or.inl ⟨_, _, by rw [get_bind, if_pos rfl]⟩⟩
    · rename_i hdst
      split at h
      · cases h
        refine ⟨Step.refl _ _, fun _ => ⟨data, perm, mt, hsrc, Or.inr ?_⟩⟩
        rw [get, hdst]
        trivial
      · cases h
    · cases h; exact ⟨Step.refl _ _, fun h => by cases h⟩
  · cases h; exact ⟨Step.refl _ _, fun h => by cases h⟩
  · cases h; exact ⟨Step.refl _ _, fun h => by cases h⟩

theorem ioCopy_returns (fs : FS) (src dst : Path) (h : ¬ isFifoO (get fs dst)) :
    ∃ r, ioCopy fs src dst = some r := by
  unfold ioCopy
  split
  · split
    · exact ⟨_, rfl⟩
    · rename_i hdst
      rw [get, hdst] at h
      exact absurd trivial h
    · exact ⟨_, rfl⟩
  · exact ⟨_, rfl⟩
  · exact ⟨_, rfl⟩

theorem Sync_none (fs : FS) (p : Path) (h : Sync fs p = none) : ¬ isFifoO (get fs p) := by
  unfold Sync at h
  split at h
  · cases h
  · rename_i hn
    intro hf
    cases hg : lookup fs.nodes p with
    | none => rw [get, hg] at hf; exact hf
    | some v =>
      cases v with
      | fifo a b => exact hn a b hg
      | file _ _ _ => rw [get, hg] at hf; exact hf
      | dir _ _ => rw [get, hg] at hf; exact hf
      | symlink => rw [get, hg] at hf; exact hf

theorem Chmod_step (fs fs1 : FS) (p : Path) (perm : Nat) (e : Option GoError)
    (h : Chmod fs p perm = (fs1, e)) :
    Step fs fs1 (fun q => q = p) ∧
      (e = none → ∀ data pm mt, get fs p = some (.file data pm mt) →
        get fs1 p = some (.file data perm mt)) := by
  unfold Chmod at h
  split at h
  · cases h; exact ⟨Step.refl _ _, fun h => by cases h⟩
  · cases h; exact ⟨Step.refl _ _, fun h => by cases h⟩
  · rename_i data pm0 mt0 hs
    cases h
    refine ⟨Step_bind fs p _ ?_ (fun h => by cases h), fun _ data1 pm mt hg => ?_⟩
    · intro hd
      rw [Stat_ok_get _ _ _ hs] at hd
      cases hd
    · rw [Stat_ok_get _ _ _ hs] at hg
      cases hg
      rw [get_bind, if_pos rfl]
  · rename_i pm0 mt0 hs
    cases h
    refine ⟨Step_bind fs p _ (fun _ => trivial) (fun h => by cases h),
      fun _ data1 pm mt hg => ?_⟩
    rw [Stat_ok_get _ _ _ hs] at hg
    cases hg
  · rename_i pm0 mt0 hs
    cases h
    refine ⟨Step_bind fs p _ ?_ ?_, fun _ data1 pm mt hg => ?_⟩
    · intro hd
      rw [Stat_ok_get _ _ _ hs] at hd
      cases hd
    · intro _
      rw [Stat_ok_get _ _ _ hs]
      trivial
    · rw [Stat_ok_get _ _ _ hs] at hg
      cases hg
  · cases h; exact ⟨Step.refl _ _, fun h => by cases h⟩

theorem Chtimes_step (fs fs1 : FS) (p : Path) (mtime : Nat) (e : Option GoError)
    (h : Chtimes fs p mtime = (fs1, e)) :
    Step fs fs1 (fun q => q = p) ∧
      (e = none → ∀ data pm mt, get fs p = some (.file data pm mt) →
        get fs1 p = some (.file data pm mtime)) := by
  unfold Chtimes at h
  split at h
  · cases h; exact ⟨Step.refl _ _, fun h => by cases h⟩
  · cases h; exact ⟨Step.refl _ _, fun h => by cases h⟩
  · rename_i data pm0 mt0 hs
    cases h
    refine ⟨Step_bind fs p _ ?_ (fun h => by cases h), fun _ data1 pm mt hg => ?_⟩
    · intro hd
      rw [Stat_ok_get _ _ _ hs] at hd
      cases hd
    · rw [Stat_ok_get _ _ _ hs] at hg
      cases hg
      rw [get_bind, if_pos rfl]
  · rename_i pm0 mt0 hs
    cases h
    refine ⟨Step_bind fs p _ (fun _ => trivial) (fun h => by cases h),
      fun _ data1 pm mt hg => ?_⟩
    rw [Stat_ok_get _ _ _ hs] at hg
    cases hg
  · rename_i pm0 mt0 hs
    cases h
    refine ⟨Step_bind fs p _ ?_ ?_, fun _ data1 pm mt hg => ?_⟩
    · intro hd
      rw [Stat_ok_get _ _ _ hs] at hd
      cases hd
    · intro _
      rw [Stat_ok_get _ _ _ hs]
      trivial
    · rw [Stat_ok_get _ _ _ hs] at hg
      cases hg
  · cases h; exact ⟨Step.refl _ _, fun h => by cases h⟩

theorem Open_ok_get (fs : FS) (p : Path) (v : Inode) (h : Open fs p = some (.ok v)) :
    get fs p = some v ∧ Stat fs p = .ok v := by
  unfold Open at h
  split at h
  · cases h
  · cases h
  · cases h
  · rename_i v1 _ hs
    cases h
    exact ⟨Stat_ok_get _ _ _ hs, hs⟩

theorem Open_returns (fs : FS) (p : Path) (h : ¬ isFifoO (get fs p)) :
    ∃ r, Open fs p = some r := by
  unfold Open
  split
  · exact ⟨_, rfl⟩
  · exact ⟨_, rfl⟩
  · rename_i hs
    rw [Stat_ok_get _ _ _ hs] at h
    exact absurd trivial h
  · exact ⟨_, rfl⟩

theorem CopyFile_step (fs fs1 : FS) (src dst : Path) (e : Option GoError)
    (h : CopyFile fs src dst = some (fs1, e)) :
    Step fs fs1 (fun q => q = dst ∨ q = dst.dropLast) ∧ (get fs src = none → fs1 = fs) ∧
      (e = none → src ≠ dst → src ≠ dst.dropLast →
        ∃ data perm mt, get fs src = some (.file data perm mt) ∧
          get fs1 dst = some (.file data perm mt)) := by
  have hl : ∀ q, q = dst → q = dst ∨ q = dst.dropLast := fun q hq => Or.inl hq
  have hid : ∀ q, (q = dst ∨ q = dst.dropLast) → q = dst ∨ q = dst.dropLast := fun q hq => hq
  unfold CopyFile at h
  cases ho : Open fs src with
  | none => rw [ho] at h; cases h
  | some r =>
    cases r with
    | error e0 =>
      rw [ho] at h
      cases h
      exact ⟨Step.refl _ _, fun _ => rfl, fun h => by cases h⟩
    | ok v0 =>
      rw [ho] at h
      simp only [] at h
      have hsrc : get fs src ≠ none := by rw [(Open_ok_get _ _ _ ho).1]; simp
      cases hA : Create fs dst with
      | mk fsA eA =>
        have sA := Create_step _ _ _ _ hA
        rw [hA] at h
        cases eA with
        | some eA =>
          cases h
          exact ⟨sA.1, fun h => absurd h hsrc, fun h => by cases h⟩
        | none =>
          simp only [] at h
          cases hB : ioCopy fsA src dst with
          | none => rw [hB] at h; cases h
          | some rB =>
            obtain ⟨fsB, eB⟩ := rB
            have sB := ioCopy_step _ _ _ _ _ hB
            have sAB := sA.1.trans sB.1 hid hl
            rw [hB] at h
            cases eB with
            | some eB =>
              cases h
              exact ⟨sAB, fun h => absurd h hsrc, fun h => by cases h⟩
            | none =>
              simp only [] at h
              cases hS : Sync fsB dst with
              | some eS =>
                rw [hS] at h
                cases h
                exact ⟨sAB, fun h => absurd h hsrc, fun h => by cases h⟩
              | none =>
                rw [hS] at h
                simp only [] at h
                cases hsi : Stat fsB src with
                | error e1 =>
                  rw [hsi] at h
                  cases h
                  exact ⟨sAB, fun h => absurd h hsrc, fun h => by cases h⟩
                | ok si =>
                  rw [hsi] at h
                  simp only [] at h
                  cases hC : Chmod fsB dst si.Perm with
                  | mk fsC eC =>
                    have sC := Chmod_step _ _ _ _ _ hC
                    rw [hC] at h
                    cases eC with
                    | some eC =>
                      cases h
                      exact ⟨sAB.trans sC.1 hid hl, fun h => absurd h hsrc,
                        fun h => by cases h⟩
                    | none =>
                      simp only [Option.some.injEq] at h
                      have sT := Chtimes_step _ _ _ _ _ h
                      refine ⟨(sAB.trans sC.1 hid hl).trans sT.1 hid hl,
                        fun h => absurd h hsrc, fun he h1 h2 => ?_⟩
                      subst he
                      obtain ⟨data, perm, mt, gA, gB⟩ := sB.2 rfl
                      have gB1 : ∃ perm1 mt1, get fsB dst = some (.file data perm1 mt1) := by
                        rcases gB with g | g
                        · exact g
                        · exact absurd g (Sync_none _ _ hS)
                      obtain ⟨perm1, mt1, gB2⟩ := gB1
                      have gsrc : get fs src = some (.file data perm mt) := by
                        rw [← sA.1.1 src (by rintro (h | h); exact h1 h; exact h2 h)]
                        exact gA
                      have gBsrc : get fsB src = some (.file data perm mt) := by
                        rw [sB.1.1 src h1]
                        exact gA
                      have hsi2 := Stat_ok_get _ _ _ hsi
                      rw [gBsrc] at hsi2
                      cases hsi2
                      exact ⟨data, perm, mt, gsrc, sT.2 rfl _ _ _ (sC.2 rfl _ _ _ gB2)⟩

theorem CopyFile_returns (fs : FS) (src dst : Path) (hnf : NoFifo fs) :
    ∃ r, CopyFile fs src dst = some r := by
  unfold CopyFile
  obtain ⟨r, ho⟩ := Open_returns fs src (hnf src)
  rw [ho]
  cases r with
  | error e0 => exact ⟨_, rfl⟩
  | ok v0 =>
    simp only []
    cases hA : Create fs dst with
    | mk fsA eA =>
      have sA := Create_step _ _ _ _ hA
      cases eA with
      | some eA => exact ⟨_, rfl⟩
      | none =>
        simp only []
        obtain ⟨rB, hB⟩ := ioCopy_returns fsA src dst (fun hf => hnf dst (sA.1.2.2 dst hf))
        rw [hB]
        obtain ⟨fsB, eB⟩ := rB
        cases eB with
        | some eB => exact ⟨_, rfl⟩
        | none =>
          simp only []
          cases Sync fsB dst with
          | some eS => exact ⟨_, rfl⟩
          | none =>
            simp only []
            cases Stat fsB src with
            | error e1 => exact ⟨_, rfl⟩
            | ok si =>
              simp only []
              cases Chmod fsB dst si.Perm with
              | mk fsC eC =>
                cases eC with
                | some eC => exact ⟨_, rfl⟩
                | none => exact ⟨_, rfl⟩

/-! ### Directory listing -/

theorem childName_eq_some (p : Path) (kv : Path × Inode) (x : String) :
    childName p kv = some x ↔ kv.1 = p ++ [x] := by
  unfold childName
  constructor
  · intro h
    split at h
    · rename_i hd
      rw [← hd]
      exact (List.dropLast_append_getLast? x (by simpa using h)).symm
    · cases h
  · intro h
    rw [h]
    simp

theorem mem_names (fs : FS) (p : Path) (x : String) :
    x ∈ names fs p ↔ get fs (p ++ [x]) ≠ none := by
  unfold names
  rw [(List.perm_insertionSort _ _).mem_iff, List.mem_dedup, List.mem_filterMap, get,
    lookup_some_iff_mem]
  constructor
  · rintro ⟨⟨k, v⟩, hm, hc⟩
    rw [childName_eq_some] at hc
    simp only at hc
    subst hc
    exact ⟨v, hm⟩
  · rintro ⟨v, hm⟩
    exact ⟨(p ++ [x], v), hm, (childName_eq_some _ _ _).2 rfl⟩

theorem nodup_names (fs : FS) (p : Path) : (names fs p).Nodup := by
  unfold names
  rw [(List.perm_insertionSort _ _).nodup_iff]
  exact List.nodup_dedup _

theorem Stat_ok_walk (fs : FS) (p : Path) (v : Inode) (h : Stat fs p = .ok v) :
    walk fs.nodes [] p = .ok v := by
  unfold Stat at h
  split at h
  · cases h
  · split at h
    · cases h
    · rename_i hw
      cases h
      exact hw
    · cases h

theorem Lstat_child (fs : FS) (p : Path) (x : String) (pm mt : Nat)
    (hw : walk fs.nodes [] p = .ok (.dir pm mt)) :
    Lstat fs (p ++ [x]) =
      if tooLong (p ++ [x]) then .error (.pathError "lstat" (p ++ [x]) .ENAMETOOLONG)
      else
        match get fs (p ++ [x]) with
        | some v => .ok v
        | none => .error (.pathError "lstat" (p ++ [x]) .ENOENT) := by
  unfold Lstat
  rw [walk_concat, hw]
  simp only [List.nil_append, get]
  cases lookup fs.nodes (p ++ [x]) <;> rfl

theorem lstatEntries_ok (fs : FS) (p : Path) (pm mt : Nat)
    (hw : walk fs.nodes [] p = .ok (.dir pm mt)) (l : List String) :
    ∀ es, lstatEntries fs p l = .ok es →
      (∀ x v, (x, v) ∈ es ↔ x ∈ l ∧ get fs (p ++ [x]) = some v) ∧
        (es.map Prod.fst).Sublist l := by
  induction l with
  | nil =>
    intro es h
    simp only [lstatEntries] at h
    cases h
    exact ⟨fun x v => by simp, by simp⟩
  | cons y l ih =>
    intro es h
    simp only [lstatEntries] at h
    rw [Lstat_child fs p y pm mt hw] at h
    by_cases ht : tooLong (p ++ [y]) = true
    · rw [if_pos ht] at h
      simp [IsNotExist] at h
    · rw [if_neg ht] at h
      cases hg : get fs (p ++ [y]) with
      | none =>
        rw [hg] at h
        simp only [IsNotExist, if_true] at h
        obtain ⟨h1, h2⟩ := ih es h
        refine ⟨fun x v => ?_, h2.cons y⟩
        rw [h1 x v, List.mem_cons]
        constructor
        · rintro ⟨a, b⟩
          exact ⟨Or.inr a, b⟩
        · rintro ⟨a | a, b⟩
          · rw [a, hg] at b
            cases b
          · exact ⟨a, b⟩
      | some w =>
        rw [hg] at h
        simp only [] at h
        cases hr : lstatEntries fs p l with
        | error e => rw [hr] at h; cases h
        | ok es1 =>
          rw [hr] at h
          cases h
          obtain ⟨h1, h2⟩ := ih es1 hr
          refine ⟨fun x v => ?_, by simpa using h2.cons₂ y⟩
          rw [List.mem_cons, h1 x v, List.mem_cons]
          constructor
          · rintro (a | ⟨a, b⟩)
            · cases a
              exact ⟨Or.inl rfl, hg⟩
            · exact ⟨Or.inr a, b⟩
          · rintro ⟨a | a, b⟩
            · subst a
              rw [hg] at b
              cases b
              exact Or.inl rfl
            · exact Or.inr ⟨a, b⟩

theorem ReadDir_ok (fs : FS) (p : Path) (es : List (String × Inode))
    (h : ReadDir fs p = some (.ok es)) :
    (∀ x v, (x, v) ∈ es ↔ get fs (p ++ [x]) = some v) ∧ (es.map Prod.fst).Nodup ∧
      isDirO (get fs p) := by
  unfold ReadDir at h
  split at h
  · cases h
  · cases h
  · rename_i pm mt hs
    simp only [Option.some.injEq] at h
    have hw := Stat_ok_walk _ _ _ (Open_ok_get _ _ _ hs).2
    obtain ⟨h1, h2⟩ := lstatEntries_ok fs p pm mt hw _ es h
    refine ⟨fun x v => ?_, (nodup_names fs p).sublist h2, ?_⟩
    · rw [h1 x v, mem_names]
      constructor
      · exact fun a => a.2
      · intro a
        exact ⟨by rw [a]; simp, a⟩
    · rw [(Open_ok_get _ _ _ hs).1]; trivial
  · cases h

theorem ReadDir_returns (fs : FS) (p : Path) (h : ¬ isFifoO (get fs p)) :
    ∃ r, ReadDir fs p = some r := by
  unfold ReadDir
  obtain ⟨r, ho⟩ := Open_returns fs p h
  rw [ho]
  cases r with
  | error e => exact ⟨_, rfl⟩
  | ok v =>
    cases v with
    | dir _ _ => exact ⟨_, rfl⟩
    | file _ _ _ => exact ⟨_, rfl⟩
    | symlink => exact ⟨_, rfl⟩
    | fifo _ _ => exact ⟨_, rfl⟩

/-! ### The error exits of CopyDir -/

theorem CopyDir_source_not_dir (n : Nat) (fs : FS) (src dst : Path) (crush : Bool)
    (v : Inode) (hs : Stat fs (Clean src) = .ok v) (hv : v.IsDir = false) :
    CopyDir (n + 1) fs src dst crush
      = some (fs, some (.errorf "Source is not a directory")) := by
  simp [CopyDir, hs, hv]

theorem CopyDir_dst_exists (n : Nat) (fs : FS) (src dst : Path)
    (v w : Inode) (hs : Stat fs (Clean src) = .ok v) (hv : v.IsDir = true)
    (hd : Stat fs (Clean dst) = .ok w) :
    CopyDir (n + 1) fs src dst false
      = some (fs, some (.errorf "Destination already exists")) := by
  simp [CopyDir, hs, hv, hd]

/-! ### The recursion bound -/

theorem copyEntries_mono
    (f g : FS → Path → Path → Bool → Option (FS × Option GoError))
    (hfg : ∀ fs s d c r, f fs s d c = some r → g fs s d c = some r)
    (src dst : Path) (crush : Bool) (es : List (String × Inode)) (fs : FS)
    (r : FS × Option GoError) (h : copyEntries f src dst crush es fs = some r) :
    copyEntries g src dst crush es fs = some r := by
  induction es generalizing fs with
  | nil => simpa [copyEntries] using h
  | cons e es ih =>
    simp only [copyEntries] at h ⊢
    by_cases hd : e.2.IsDir = true
    · simp only [hd, if_true] at h ⊢
      cases hf : f fs (Join src e.1) (Join dst e.1) crush with
      | none => simp only [hf] at h; cases h
      | some res =>
        obtain ⟨fs1, e1⟩ := res
        rw [hfg _ _ _ _ _ hf]
        cases e1 with
        | none =>
          simp only [hf] at h ⊢
          exact ih _ h
        | some e1 =>
          simp only [hf] at h ⊢
          exact h
    · simp only [hd, if_false] at h ⊢
      by_cases hl : e.2.IsSymlink = true
      · simp only [hl, if_true] at h ⊢
        exact ih _ h
      · simp only [hl, if_false] at h ⊢
        cases hc : CopyFile fs (Join src e.1) (Join dst e.1) with
        | none => simp only [hc] at h; cases h
        | some res =>
          obtain ⟨fs1, e1⟩ := res
          cases e1 with
          | none =>
            simp only [hc] at h ⊢
            exact ih _ h
          | some e1 =>
            simp only [hc] at h ⊢
            exact h

theorem CopyDir_mono_succ (n : Nat) : ∀ (fs : FS) (src dst : Path) (crush : Bool)
    (r : FS × Option GoError), CopyDir n fs src dst crush = some r →
    CopyDir (n + 1) fs src dst crush = some r := by
  induction n with
  | zero => intro fs src dst crush r h; simp [CopyDir] at h
  | succ n ih =>
    intro fs src dst crush r h
    rw [CopyDir] at h ⊢
    simp only [] at h ⊢
    cases hs : Stat fs (Clean src) with
    | error e => simp only [hs] at h ⊢; exact h
    | ok si =>
      simp only [hs] at h ⊢
      by_cases hd : (!si.IsDir) = true
      · rw [if_pos hd] at h ⊢; exact h
      · rw [if_neg hd] at h ⊢
        have tail : ∀ r1 : FS × Option GoError,
            (match MkdirAll fs (Clean dst) si.Perm with
              | (fs1, some e1) => some (fs1, some e1)
              | (fs1, none) =>
                match ReadDir fs1 (Clean src) with
                | none => none
                | some (.error e2) => some (fs1, some e2)
                | some (.ok entries) =>
                  copyEntries (CopyDir n) (Clean src) (Clean dst) crush entries fs1) = some r1 →
            (match MkdirAll fs (Clean dst) si.Perm with
              | (fs1, some e1) => some (fs1, some e1)
              | (fs1, none) =>
                match ReadDir fs1 (Clean src) with
                | none => none
                | some (.error e2) => some (fs1, some e2)
                | some (.ok entries) =>
                  copyEntries (CopyDir (n + 1)) (Clean src) (Clean dst) crush entries fs1)
              = some r1 := by
          intro r1 h1
          cases hm : MkdirAll fs (Clean dst) si.Perm with
          | mk fs1 e1 =>
            cases e1 with
            | some e1 => simp only [hm] at h1 ⊢; exact h1
            | none =>
              simp only [hm] at h1 ⊢
              cases hr : ReadDir fs1 (Clean src) with
              | none => simp only [hr] at h1; cases h1
              | some rd =>
                cases rd with
                | error e2 => simp only [hr] at h1 ⊢; exact h1
                | ok entries =>
                  simp only [hr] at h1 ⊢
                  exact copyEntries_mono _ _ ih _ _ _ _ _ _ h1
        cases hdst : Stat fs (Clean dst) with
        | error e =>
          simp only [hdst] at h ⊢
          by_cases hne : (!IsNotExist e) = true
          · rw [if_pos hne] at h ⊢; exact h
          · rw [if_neg hne] at h ⊢
            exact tail _ h
        | ok w =>
          simp only [hdst] at h ⊢
          by_cases hc : crush = false
          · rw [if_pos hc] at h ⊢; exact h
          · rw [if_neg hc] at h ⊢
            exact tail _ h

theorem CopyDir_mono (n m : Nat) (hnm : n ≤ m) (fs : FS) (src dst : Path) (crush : Bool)
    (r : FS × Option GoError) (h : CopyDir n fs src dst crush = some r) :
    CopyDir m fs src dst crush = some r := by
  induction hnm with
  | refl => exact h
  | step _ ih => exact CopyDir_mono_succ _ _ _ _ _ _ ih

theorem CopyDir_Clean (n : Nat) (fs : FS) (src dst : Path) (crush : Bool) :
    CopyDir n fs src dst crush = CopyDir n fs (Clean src) (Clean dst) crush := by
  cases n with
  | zero => rfl
  | succ n => rw [CopyDir, CopyDir]; simp only [Clean_Clean]

theorem isDirO_ne_none (o : Option Inode) (h : isDirO o) : o ≠ none := by
  intro e
  rw [e] at h
  exact h

theorem isDirO_of_IsDir (v : Inode) (h : v.IsDir = true) : isDirO (some v) := by
  cases v with
  | dir _ _ => trivial
  | file _ _ _ => cases h
  | symlink => cases h
  | fifo _ _ => cases h

/-! ### The two ways through CopyDir -/

theorem CopyDir_succ (n : Nat) (fs : FS) (src dst : Path) (crush : Bool) :
    (∃ fs1 e, CopyDir (n + 1) fs src dst crush = some (fs1, some e) ∧
        Step fs fs1 (fun q => q <+: Clean dst) ∧ (get fs (Clean src) = none → fs1 = fs)) ∨
    (∃ si fs1 es, Stat fs (Clean src) = .ok si ∧ si.IsDir = true ∧
        MkdirAll fs (Clean dst) si.Perm = (fs1, none) ∧
        ReadDir fs1 (Clean src) = some (.ok es) ∧
        CopyDir (n + 1) fs src dst crush
          = copyEntries (CopyDir n) (Clean src) (Clean dst) crush es fs1) := by
  rw [CopyDir]
  simp only []
  cases hs : Stat fs (Clean src) with
  | error e => exact Or.inl ⟨fs, e, rfl, Step.refl _ _, fun _ => rfl⟩
  | ok si =>
    have hex : get fs (Clean src) ≠ none := by rw [Stat_ok_get _ _ _ hs]; simp
    simp only []
    by_cases hd : (!si.IsDir) = true
    · rw [if_pos hd]
      exact Or.inl ⟨fs, _, rfl, Step.refl _ _, fun _ => rfl⟩
    · rw [if_neg hd]
      have hdir : si.IsDir = true := by simpa using hd
      have tail :
          (∃ fs1 e, (match MkdirAll fs (Clean dst) si.Perm with
              | (fs1, some e1) => some (fs1, some e1)
              | (fs1, none) =>
                match ReadDir fs1 (Clean src) with
                | none => none
                | some (.error e2) => some (fs1, some e2)
                | some (.ok entries) =>
                  copyEntries (CopyDir n) (Clean src) (Clean dst) crush entries fs1)
                = some (fs1, some e) ∧ Step fs fs1 (fun q => q <+: Clean dst) ∧
                  (get fs (Clean src) = none → fs1 = fs)) ∨
          (∃ si1 fs1 es, Except.ok si = Except.ok (ε := GoError) si1 ∧ si1.IsDir = true ∧
              MkdirAll fs (Clean dst) si1.Perm = (fs1, none) ∧
              ReadDir fs1 (Clean src) = some (.ok es) ∧
              (match MkdirAll fs (Clean dst) si.Perm with
              | (fs1, some e1) => some (fs1, some e1)
              | (fs1, none) =>
                match ReadDir fs1 (Clean src) with
                | none => none
                | some (.error e2) => some (fs1, some e2)
                | some (.ok entries) =>
                  copyEntries (CopyDir n) (Clean src) (Clean dst) crush entries fs1)
                = copyEntries (CopyDir n) (Clean src) (Clean dst) crush es fs1) := by
        cases hm : MkdirAll fs (Clean dst) si.Perm with
        | mk fs1 e1 =>
          have hstep := (MkdirAll_step _ _ _ _ _ hm).1
          cases e1 with
          | some e1 => exact Or.inl ⟨fs1, e1, rfl, hstep, fun h => absurd h hex⟩
          | none =>
            simp only []
            have hsd : isDirO (get fs1 (Clean src)) := by
              apply hstep.2.1
              rw [Stat_ok_get _ _ _ hs]
              exact isDirO_of_IsDir _ hdir
            obtain ⟨rd, hr⟩ := ReadDir_returns fs1 (Clean src) (fun hf => by
              cases hg : get fs1 (Clean src) with
              | none => rw [hg] at hsd; exact hsd
              | some v =>
                rw [hg] at hsd hf
                cases v with
                | dir _ _ => exact hf
                | file _ _ _ => exact hf
                | symlink => exact hf
                | fifo _ _ => exact hsd)
            cases rd with
            | error e2 =>
              rw [hr]
              exact Or.inl ⟨fs1, e2, rfl, hstep, fun h => absurd h hex⟩
            | ok entries =>
              refine Or.inr ⟨si, fs1, entries, rfl, hdir, hm, hr, ?_⟩
              rw [hr]
      cases hdst : Stat fs (Clean dst) with
      | error e =>
        simp only []
        by_cases hne : (!IsNotExist e) = true
        · rw [if_pos hne]
          exact Or.inl ⟨fs, e, rfl, Step.refl _ _, fun _ => rfl⟩
        · rw [if_neg hne]
          exact tail
      | ok w =>
        simp only []
        by_cases hc : crush = false
        · rw [if_pos hc]
          exact Or.inl ⟨fs, _, rfl, Step.refl _ _, fun _ => rfl⟩
        · rw [if_neg hc]
          exact tail

theorem CopyDir_enters_loop (n : Nat) (fs fs1 : FS) (src dst : Path) (crush : Bool)
    (si : Inode) (e : GoError) (es : List (String × Inode))
    (hs : Stat fs (Clean src) = .ok si) (hd : si.IsDir = true)
    (hdst : Stat fs (Clean dst) = .error e) (hne : IsNotExist e = true)
    (hm : MkdirAll fs (Clean dst) si.Perm = (fs1, none))
    (hr : ReadDir fs1 (Clean src) = some (.ok es)) :
    CopyDir (n + 1) fs src dst crush
      = copyEntries (CopyDir n) (Clean src) (Clean dst) crush es fs1 := by
  rw [CopyDir]
  simp [hs, hd, hdst, hne, hm, hr]

/-! ### Termination -/

theorem copyEntries_total
    (f : FS → Path → Path → Bool → Option (FS × Option GoError))
    (s d : Path) (crush : Bool) (P : FS → Prop)
    (hrec : ∀ fs x, P fs → properName x →
      ∃ res, f fs (Join s x) (Join d x) crush = some res ∧ P res.1)
    (hfile : ∀ fs x, P fs → properName x →
      ∃ res, CopyFile fs (Join s x) (Join d x) = some res ∧ P res.1)
    (es : List (String × Inode)) (hes : ∀ e ∈ es, properName e.1) (fs : FS) (hP : P fs) :
    ∃ res, copyEntries f s d crush es fs = some res ∧ P res.1 := by
  induction es generalizing fs with
  | nil => exact ⟨(fs, none), rfl, hP⟩
  | cons e es ih =>
    have hx := hes e (List.mem_cons_self _ _)
    have hes1 : ∀ e1 ∈ es, properName e1.1 := fun e1 h1 => hes e1 (List.mem_cons_of_mem _ h1)
    simp only [copyEntries]
    by_cases hd : e.2.IsDir = true
    · rw [if_pos hd]
      obtain ⟨⟨fs1, e1⟩, hf, hP1⟩ := hrec fs e.1 hP hx
      rw [hf]
      cases e1 with
      | none => exact ih hes1 fs1 hP1
      | some e1 => exact ⟨_, rfl, hP1⟩
    · rw [if_neg hd]
      by_cases hl : e.2.IsSymlink = true
      · rw [if_pos hl]
        exact ih hes1 fs hP
      · rw [if_neg hl]
        obtain ⟨⟨fs1, e1⟩, hc, hP1⟩ := hfile fs e.1 hP hx
        rw [hc]
        cases e1 with
        | none => exact ih hes1 fs1 hP1
        | some e1 => exact ⟨_, rfl, hP1⟩

theorem ProperNames_step (fs fs1 : FS) (W : Path → Prop) (hpn : ProperNames fs)
    (hs : Step fs fs1 W) (hw : ∀ q, W q → Proper q) : ProperNames fs1 := by
  intro k hk
  by_cases h : W k
  · exact hw k h
  · rw [hs.1 k h] at hk
    exact hpn k hk

theorem NoFifo_step (fs fs1 : FS) (W : Path → Prop) (hnf : NoFifo fs)
    (hs : Step fs fs1 W) : NoFifo fs1 :=
  fun k hk => hnf k (hs.2.2 k hk)

theorem byteLen_concat (p : Path) (x : String) :
    byteLen (p ++ [x]) = byteLen p + (x.utf8ByteSize + 1) := by
  simp [byteLen]

theorem tooLong_of_le (p : Path) (h : PATH_MAX ≤ byteLen p) : tooLong p = true := by
  have hne : p ≠ [] := by
    rintro rfl
    simp [byteLen, PATH_MAX] at h
  simp [tooLong, pathLen, hne, h]

theorem Stat_ok_short (fs : FS) (p : Path) (v : Inode) (h : Stat fs p = .ok v) :
    tooLong p = false := by
  unfold Stat at h
  split at h
  · cases h
  · rename_i ht
    simpa using ht

theorem CopyDir_total_step (s d : Path) (crush : Bool) (hs : Proper s) (hd : Proper d)
    (fuel : Nat) (fs : FS) (hpn : ProperNames fs) (hnf : NoFifo fs)
    (hrec : tooLong s = false → ∀ fs1 x, properName x → ProperNames fs1 ∧ NoFifo fs1 →
      ∃ res, CopyDir fuel fs1 (s ++ [x]) (d ++ [x]) crush = some res ∧
        (ProperNames res.1 ∧ NoFifo res.1)) :
    ∃ res, CopyDir (fuel + 1) fs s d crush = some res ∧
      (ProperNames res.1 ∧ NoFifo res.1) := by
  have hcs : Clean s = s := Clean_of_proper _ hs
  have hcd : Clean d = d := Clean_of_proper _ hd
  have hwd : ∀ q, q <+: d → Proper q := fun q hq => proper_of_init _ _ hq hd
  rcases CopyDir_succ fuel fs s d crush with
    ⟨fs1, e, h1, hstep, _⟩ | ⟨si, fs1, es, hst, hdir, hm, hrd, h1⟩
  · rw [hcd] at hstep
    exact ⟨_, h1, ProperNames_step _ _ _ hpn hstep hwd, NoFifo_step _ _ _ hnf hstep⟩
  · rw [hcs] at hst hrd h1
    rw [hcd] at hm h1
    have hshort := Stat_ok_short _ _ _ hst
    have hstep := (MkdirAll_step _ _ _ _ _ hm).1
    have hpn1 : ProperNames fs1 := ProperNames_step _ _ _ hpn hstep hwd
    have hnf1 : NoFifo fs1 := NoFifo_step _ _ _ hnf hstep
    rw [h1]
    have hes : ∀ e ∈ es, properName e.1 := by
      intro e he
      have hg := ((ReadDir_ok _ _ _ hrd).1 e.1 e.2).1 he
      have hp := hpn1 (s ++ [e.1]) (by rw [hg]; simp)
      exact hp e.1 (by simp)
    apply copyEntries_total _ _ _ _ (fun fs => ProperNames fs ∧ NoFifo fs) _ _ es hes fs1
      ⟨hpn1, hnf1⟩
    · intro fs2 x hb2 hx
      rw [Join_proper _ _ hs hx, Join_proper _ _ hd hx]
      exact hrec hshort fs2 x hx hb2
    · intro fs2 x hb2 hx
      rw [Join_proper _ _ hs hx, Join_proper _ _ hd hx]
      obtain ⟨⟨fs3, e⟩, hc⟩ := CopyFile_returns fs2 (s ++ [x]) (d ++ [x]) hb2.2
      obtain ⟨hstep2, _, _⟩ := CopyFile_step _ _ _ _ _ hc
      refine ⟨_, hc, ProperNames_step _ _ _ hb2.1 hstep2 ?_, NoFifo_step _ _ _ hb2.2 hstep2⟩
      intro q hq
      rcases hq with rfl | rfl
      · exact proper_concat _ _ hd hx
      · rw [List.dropLast_concat]
        exact hd

theorem CopyDir_total_aux (crush : Bool) :
    ∀ (j : Nat) (s d : Path) (fs : FS), PATH_MAX ≤ byteLen s + j → Proper s → Proper d →
      ProperNames fs → NoFifo fs →
      ∃ res, CopyDir (j + 1) fs s d crush = some res ∧ (ProperNames res.1 ∧ NoFifo res.1) := by
  intro j
  induction j with
  | zero =>
    intro s d fs hL hs hd hpn hnf
    apply CopyDir_total_step s d crush hs hd 0 fs hpn hnf
    intro hshort
    rw [tooLong_of_le s (by omega)] at hshort
    cases hshort
  | succ j ih =>
    intro s d fs hL hs hd hpn hnf
    apply CopyDir_total_step s d crush hs hd (j + 1) fs hpn hnf
    intro _ fs1 x hx hb1
    apply ih (s ++ [x]) (d ++ [x]) fs1 _ (proper_concat _ _ hs hx) (proper_concat _ _ hd hx)
      hb1.1 hb1.2
    rw [byteLen_concat]
    omega

theorem CopyDir_total (fs : FS) (src dst : Path) (crush : Bool) (hpn : ProperNames fs)
    (hnf : NoFifo fs) :
    ∃ res, ∀ m, PATH_MAX < m → CopyDir m fs src dst crush = some res := by
  obtain ⟨res, h, _⟩ := CopyDir_total_aux crush PATH_MAX (Clean src) (Clean dst) fs
    (by omega) (proper_Clean _) (proper_Clean _) hpn hnf
  refine ⟨res, fun m hm => ?_⟩
  rw [CopyDir_Clean]
  exact CopyDir_mono _ _ hm _ _ _ _ _ h

/-! ### A destination inside the source -/

theorem walk_ok_iff (nodes : List (Path × Inode)) (p : Path) (v : Inode) :
    walk nodes [] p = .ok v ↔
      lookup nodes p = some v ∧ ∀ q, q <+: p → q ≠ p → isDirO (lookup nodes q) := by
  induction p using List.reverseRecOn generalizing v with
  | nil =>
    simp only [walk, List.prefix_nil]
    constructor
    · intro h
      split at h
      · cases h
        rename_i h1
        exact ⟨h1, fun q h2 h3 => absurd h2 h3⟩
      · cases h
    · rintro ⟨h, _⟩
      rw [h]
  | append_singleton p x ih =>
    rw [walk_concat]
    simp only [List.nil_append]
    constructor
    · intro h
      split at h
      · rename_i a b hw
        have hp := (ih _).1 hw
        split at h
        · rename_i v1 hl
          cases h
          refine ⟨hl, fun q hq hne => ?_⟩
          rcases List.prefix_concat_iff.1 hq with e | hq1
          · exact absurd e hne
          · by_cases e : q = p
            · rw [e, hp.1]; trivial
            · exact hp.2 q hq1 e
        · cases h
      all_goals cases h
    · rintro ⟨hl, hpre⟩
      have hd := hpre p (List.prefix_append _ _) (by
        intro e
        have := congrArg List.length e
        simp at this)
      cases hg : lookup nodes p with
      | none => rw [hg] at hd; cases hd
      | some w =>
        rw [hg] at hd
        cases w with
        | file _ _ _ => cases hd
        | symlink => cases hd
        | fifo _ _ => cases hd
        | dir a b =>
          have hw : walk nodes [] p = .ok (.dir a b) :=
            (ih _).2 ⟨hg, fun q hq hne =>
              hpre q (hq.trans (List.prefix_append _ _)) (by
                intro e
                rw [e] at hq
                have := hq.length_le
                simp at this)⟩
          rw [hw]
          simp only [hl]

theorem eq_singleton_of_nodup (l : List String) (a : String) (hn : l.Nodup)
    (h : ∀ x, x ∈ l ↔ x = a) : l = [a] := by
  cases l with
  | nil => exact absurd ((h a).2 rfl) (by simp)
  | cons y l =>
    have hy : y = a := (h y).1 (List.mem_cons_self _ _)
    subst hy
    cases l with
    | nil => rfl
    | cons z l =>
      have hz : z = y := (h z).1 (by simp)
      subst hz
      simp at hn

theorem mkdirAllRev_of_dir (perm : Nat) (rp : List String) (fs : FS) (a b : Nat)
    (h : Stat fs rp.reverse = .ok (.dir a b)) : mkdirAllRev perm rp fs = (fs, none) := by
  cases rp with
  | nil =>
    simp only [List.reverse_nil] at h
    simp only [mkdirAllRev, h]
  | cons c parent => simp only [mkdirAllRev, h]

theorem Chain_step (fs : FS) (p : Path) (h : Chain fs p)
    (hsp : tooLong p = false) (hsb : tooLong (p ++ ["b"]) = false) :
    ∃ fs1, Chain fs1 (p ++ ["b"]) ∧ ∀ n,
      CopyDir (n + 1) fs p (p ++ ["b"]) true
        = (match CopyDir n fs1 (p ++ ["b"]) (p ++ ["b"] ++ ["b"]) true with
          | none => none
          | some (fs2, some e) => some (fs2, some e)
          | some (fs2, none) => some (fs2, none)) := by
  obtain ⟨hp, ⟨pm, mt, hw⟩, hbelow⟩ := h
  have hb : properName "b" := by decide
  have hpb : Proper (p ++ ["b"]) := proper_concat _ _ hp hb
  have hcs : Clean p = p := Clean_of_proper _ hp
  have hcd : Clean (p ++ ["b"]) = p ++ ["b"] := Clean_of_proper _ hpb
  have hnone : lookup fs.nodes (p ++ ["b"]) = none := hbelow ["b"] (by simp)
  -- the source is a directory, the destination does not exist
  have hs : Stat fs p = .ok (.dir pm mt) := by simp [Stat, hsp, hw]
  have hwd : walk fs.nodes [] (p ++ ["b"]) = .error .ENOENT := by
    rw [walk_concat, hw]
    simp only [List.nil_append, hnone]
  have hd : Stat fs (p ++ ["b"]) = .error (.pathError "stat" (p ++ ["b"]) .ENOENT) := by
    simp [Stat, hsb, hwd]
  -- MkdirAll creates the destination
  let fs1 := addEntry fs (p ++ ["b"]) (.dir (applyUmask fs.umask pm) fs.now) pm
  have hmk : Mkdir fs (p ++ ["b"]) pm = (fs1, none) := by
    unfold Mkdir
    rw [if_neg (by simp), if_neg (by simp [hsb]), List.dropLast_concat, hw]
    simp only [hnone]
  have hm : MkdirAll fs (p ++ ["b"]) pm = (fs1, none) := by
    unfold MkdirAll
    rw [List.reverse_append, List.reverse_singleton, List.singleton_append]
    have hrev : ("b" :: p.reverse).reverse = p ++ ["b"] := by simp
    simp only [mkdirAllRev, hrev, hd]
    have hlast : mkdirLast fs (p ++ ["b"]) pm = (fs1, none) := by
      simp only [mkdirLast, hmk]
    split
    · exact hlast
    · rw [mkdirAllRev_of_dir pm p.reverse fs pm mt (by rw [List.reverse_reverse]; exact hs)]
      exact hlast
  -- what the new state binds
  have hg1 : ∀ q, get fs1 q = if q = p then some (.dir pm fs.now)
      else if q = p ++ ["b"] then some (.dir (applyUmask fs.umask pm) fs.now) else get fs q := by
    intro q
    rw [get_addEntry, List.dropLast_concat]
  have hne : p ++ ["b"] ≠ p := by
    intro e
    have := congrArg List.length e
    simp at this
  have hwp := (walk_ok_iff _ _ _).1 hw
  have hw1 : walk fs1.nodes [] p = .ok (.dir pm fs.now) := by
    rw [walk_ok_iff]
    refine ⟨by have := hg1 p; rw [if_pos rfl] at this; exact this, fun q hq hqne => ?_⟩
    have hq2 : q ≠ p ++ ["b"] := by
      intro e
      rw [e] at hq
      have := hq.length_le
      simp at this
    have := hg1 q
    rw [if_neg hqne, if_neg hq2] at this
    show isDirO (get fs1 q)
    rw [this]
    exact hwp.2 q hq hqne
  have hw2 : walk fs1.nodes [] (p ++ ["b"]) = .ok (.dir (applyUmask fs.umask pm) fs.now) := by
    rw [walk_concat, hw1]
    have := hg1 (p ++ ["b"])
    rw [if_neg hne, if_pos rfl] at this
    simp only [List.nil_append]
    rw [show lookup fs1.nodes (p ++ ["b"]) = _ from this]
  have hbelow1 : ∀ q, q ≠ [] → get fs1 (p ++ ["b"] ++ q) = none := by
    intro q hq
    have h1 : p ++ ["b"] ++ q ≠ p := by
      intro e
      have := congrArg List.length e
      simp at this
    have h2 : p ++ ["b"] ++ q ≠ p ++ ["b"] := by
      intro e
      have := congrArg List.length e
      simp at this
      exact hq this
    rw [hg1, if_neg h1, if_neg h2, List.append_assoc]
    exact hbelow _ (by simp)
  -- the listing of the source holds the new directory only
  have hnames : names fs1 p = ["b"] := by
    apply eq_singleton_of_nodup _ _ (nodup_names _ _)
    intro x
    rw [mem_names, hg1]
    have h1 : p ++ [x] ≠ p := by
      intro e
      have := congrArg List.length e
      simp at this
    rw [if_neg h1]
    by_cases e : x = "b"
    · subst e; simp
    · have h2 : p ++ [x] ≠ p ++ ["b"] := by simpa using e
      rw [if_neg h2, hbelow [x] (by simp)]
      simp [e]
  have hrd : ReadDir fs1 p = some (.ok [("b", .dir (applyUmask fs.umask pm) fs.now)]) := by
    have hs1 : Stat fs1 p = .ok (.dir pm fs.now) := by simp [Stat, hsp, hw1]
    have hl : lookup fs1.nodes (p ++ ["b"]) = some (.dir (applyUmask fs.umask pm) fs.now) := by
      have := hg1 (p ++ ["b"])
      rw [if_neg hne, if_pos rfl] at this
      exact this
    have hl1 : Lstat fs1 (p ++ ["b"]) = .ok (.dir (applyUmask fs.umask pm) fs.now) := by
      simp [Lstat, hsb, hw2]
    simp only [ReadDir, Open, hs1, hnames, lstatEntries, hl1]
  refine ⟨fs1, ⟨hpb, ⟨_, _, hw2⟩, hbelow1⟩, fun n => ?_⟩
  rw [CopyDir_enters_loop n fs fs1 p (p ++ ["b"]) true (.dir pm mt)
    (.pathError "stat" (p ++ ["b"]) .ENOENT) _
    (by rw [hcs]; exact hs) rfl (by rw [hcd]; exact hd) rfl (by rw [hcd]; exact hm)
    (by rw [hcs]; exact hrd)]
  rw [hcs, hcd]
  simp only [copyEntries, Inode.IsDir, if_true, Join_proper _ _ hp hb, Join_proper _ _ hpb hb]

theorem Chain_end (n : Nat) (fs : FS) (p : Path) (h : Chain fs p)
    (hsp : tooLong p = false) (hsb : tooLong (p ++ ["b"]) = true) :
    CopyDir (n + 1) fs p (p ++ ["b"]) true
      = some (fs, some (.pathError "stat" (p ++ ["b"]) .ENAMETOOLONG)) := by
  obtain ⟨hp, ⟨pm, mt, hw⟩, _⟩ := h
  have hpb : Proper (p ++ ["b"]) := proper_concat _ _ hp (by decide)
  have hs : Stat fs p = .ok (.dir pm mt) := by simp [Stat, hsp, hw]
  have hd : Stat fs (p ++ ["b"]) = .error (.pathError "stat" (p ++ ["b"]) .ENAMETOOLONG) := by
    simp [Stat, hsb]
  rw [CopyDir]
  simp [Clean_of_proper _ hp, Clean_of_proper _ hpb, hs, hd, IsNotExist, Inode.IsDir]

theorem byteLen_chain (k : Nat) : byteLen ("a" :: List.replicate k "b") = 2 + 2 * k := by
  have ha : "a".utf8ByteSize = 1 := by decide
  have hb : "b".utf8ByteSize = 1 := by decide
  simp only [byteLen, List.map_cons, List.map_replicate, List.sum_cons, List.sum_replicate,
    ha, hb, smul_eq_mul]
  omega

theorem tooLong_chain (k : Nat) :
    tooLong ("a" :: List.replicate k "b") = decide (2047 ≤ k) := by
  have hb : "b".utf8ByteSize = 1 := by decide
  have ha : "a".utf8ByteSize = 1 := by decide
  have hany : ("a" :: List.replicate k "b").any (fun c => decide (NAME_MAX < c.utf8ByteSize))
      = false := by
    rw [List.any_eq_false]
    intro c hc
    rcases List.mem_cons.1 hc with rfl | hc
    · simp [ha, NAME_MAX]
    · rw [List.eq_of_mem_replicate hc]
      simp [hb, NAME_MAX]
  unfold tooLong
  rw [hany, Bool.or_false, pathLen, if_neg (by simp), byteLen_chain]
  simp only [PATH_MAX, decide_eq_decide]
  omega

theorem chain_concat (k : Nat) :
    "a" :: List.replicate k "b" ++ ["b"] = "a" :: List.replicate (k + 1) "b" := by
  rw [List.replicate_succ', List.cons_append]

theorem Chain_descends : ∀ (j k : Nat) (fs : FS), k + j = 2046 →
    Chain fs ("a" :: List.replicate k "b") →
    (∃ fs1, CopyDir (j + 1) fs ("a" :: List.replicate k "b")
        ("a" :: List.replicate k "b" ++ ["b"]) true
        = some (fs1, some (.pathError "stat" ("a" :: List.replicate 2047 "b") .ENAMETOOLONG))) ∧
      CopyDir j fs ("a" :: List.replicate k "b") ("a" :: List.replicate k "b" ++ ["b"]) true
        = none := by
  intro j
  induction j with
  | zero =>
    intro k fs hk h
    have hk1 : k = 2046 := by omega
    subst hk1
    refine ⟨⟨fs, ?_⟩, rfl⟩
    rw [Chain_end 0 fs _ h (by rw [tooLong_chain]; decide)
      (by rw [chain_concat, tooLong_chain]; decide), chain_concat]
  | succ j ih =>
    intro k fs hk h
    have hsp : tooLong ("a" :: List.replicate k "b") = false := by
      rw [tooLong_chain]
      exact decide_eq_false (by omega)
    have hsb : tooLong ("a" :: List.replicate k "b" ++ ["b"]) = false := by
      rw [chain_concat, tooLong_chain]
      exact decide_eq_false (by omega)
    obtain ⟨fs1, h1, h2⟩ := Chain_step fs _ h hsp hsb
    rw [chain_concat] at h1
    obtain ⟨⟨fs2, h3⟩, h4⟩ := ih (k + 1) fs1 (by omega) h1
    rw [h2 (j + 1), h2 j]
    simp only [chain_concat] at h3 h4 ⊢
    rw [h3, h4]
    exact ⟨⟨fs2, rfl⟩, rfl⟩

theorem Chain_loopFS : Chain loopFS ["a"] := by
  refine ⟨by decide, ⟨_, _, rfl⟩, fun q hq => ?_⟩
  cases q with
  | nil => exact absurd rfl hq
  | cons x q => simp [get, loopFS, lookup]

/-! ### What a successful copy leaves behind -/

theorem concat_prefix_concat (a b : Path) (x y : String) (h : a ++ [x] <+: b ++ [y]) :
    a <+: b := by
  rcases List.prefix_concat_iff.1 h with e | h1
  · have := List.append_inj' e rfl
    rw [this.1]
  · exact (List.prefix_append _ _).trans h1

theorem incomparable_child (s d : Path) (x : String)
    (h : ¬ s <+: d ∧ ¬ d <+: s) : ¬ (s ++ [x]) <+: (d ++ [x]) ∧ ¬ (d ++ [x]) <+: (s ++ [x]) :=
  ⟨fun h1 => h.1 (concat_prefix_concat _ _ _ _ h1),
   fun h1 => h.2 (concat_prefix_concat _ _ _ _ h1)⟩

theorem source_untouched (fs fs1 : FS) (s d d1 : Path) (h : ¬ s <+: d ∧ ¬ d <+: s)
    (hd : d <+: d1)
    (hout : ∀ k, ¬ d1 <+: k → ¬ k <+: d1 → get fs1 k = get fs k)
    (hd1 : ¬ s <+: d1) (k : Path) (hk : s <+: k) :
    get fs1 k = get fs k := by
  apply hout
  · intro h1
    rcases List.prefix_or_prefix_of_prefix hk (hd.trans h1) with h2 | h2
    · exact h.1 h2
    · exact h.2 h2
  · intro h1
    exact hd1 (hk.trans h1)

theorem Reach_congr (fs fs1 : FS) (s : Path) (r : List String)
    (h : ∀ k, s <+: k → get fs1 k = get fs k) : Reach fs1 s r ↔ Reach fs s r := by
  induction r generalizing s with
  | nil => simp [Reach]
  | cons x r ih =>
    simp only [Reach]
    rw [h s (List.prefix_refl _),
      ih (s ++ [x]) (fun k hk => h k ((List.prefix_append _ _).trans hk))]

theorem CopySpec.properNames {fs fs1 : FS} {s d : Path} (h : CopySpec fs fs1 s d)
    (hpn : ProperNames fs) (hd : Proper d) : ProperNames fs1 := by
  intro k hk
  by_cases h1 : d <+: k
  · obtain ⟨r, rfl⟩ := h1
    by_cases h2 : get fs1 (d ++ r) = get fs (d ++ r)
    · rw [h2] at hk
      exact hpn _ hk
    · have h3 := (h.inside r h2).2
      have h4 : Proper (s ++ r) := by
        apply hpn
        intro e
        rw [e] at h3
        exact h3
      intro c hc
      rcases List.mem_append.1 hc with hc | hc
      · exact hd c hc
      · exact h4 c (List.mem_append_right _ hc)
  · by_cases h2 : k <+: d
    · exact proper_of_init _ _ h2 hd
    · rw [h.outside k h1 h2] at hk
      exact hpn k hk

theorem append_cons_ne_self (p : Path) (y : String) (r : List String) : p ++ y :: r ≠ p := by
  intro e
  have := congrArg List.length e
  simp at this

theorem CopySpec_skip (fs : FS) (s1 d1 : Path) (v : Inode) (hg : get fs s1 = some v)
    (hv : v.IsDir = false) (hnf : ∀ data pm mt, v ≠ .file data pm mt) :
    CopySpec fs fs s1 d1 := by
  have hnd : ¬ isDirO (get fs s1) := by
    rw [hg]
    cases v with
    | dir _ _ => cases hv
    | file _ _ _ => exact fun h => h
    | symlink => exact fun h => h
    | fifo _ _ => exact fun h => h
  refine ⟨fun _ _ _ => rfl, fun _ h => h, fun r h => absurd rfl h, ?_, ?_⟩
  · intro r data pm mt hr hf
    cases r with
    | nil =>
      rw [List.append_nil, hg] at hf
      cases hf
      exact absurd rfl (hnf data pm mt)
    | cons y r => exact absurd hr.1 hnd
  · intro r hr hdir
    cases r with
    | nil =>
      rw [List.append_nil] at hdir
      exact absurd hdir hnd
    | cons y r => exact absurd hr.1 hnd

theorem CopySpec_file (fs fs1 : FS) (s1 d : Path) (x : String)
    (h : CopyFile fs s1 (d ++ [x]) = some (fs1, none)) (h1 : s1 ≠ d ++ [x]) (h2 : s1 ≠ d) :
    CopySpec fs fs1 s1 (d ++ [x]) := by
  obtain ⟨hstep, _, hok⟩ := CopyFile_step _ _ _ _ _ h
  rw [List.dropLast_concat] at hstep
  obtain ⟨data, pm, mt, hsrc, hdst⟩ := hok rfl h1 (by rw [List.dropLast_concat]; exact h2)
  have hnd : ¬ isDirO (get fs s1) := by rw [hsrc]; exact fun h => h
  refine ⟨fun k hk1 hk2 => ?_, hstep.2.1, fun r hr => ?_, ?_, ?_⟩
  · apply hstep.1
    rintro (e | e)
    · exact hk1 (by rw [e])
    · exact hk2 (by rw [e]; exact List.prefix_append _ _)
  · cases r with
    | nil =>
      rw [List.append_nil, hsrc]
      exact ⟨trivial, trivial⟩
    | cons y r =>
      exfalso
      apply hr
      apply hstep.1
      rintro (e | e)
      · exact append_cons_ne_self _ _ _ e
      · rw [List.append_assoc] at e
        exact append_cons_ne_self _ _ _ e
  · intro r data1 pm1 mt1 hr hf
    cases r with
    | nil =>
      rw [List.append_nil, hsrc] at hf
      cases hf
      rw [List.append_nil]
      exact hdst
    | cons y r => exact absurd hr.1 hnd
  · intro r hr hdir
    cases r with
    | nil =>
      rw [List.append_nil] at hdir
      exact absurd hdir hnd
    | cons y r => exact absurd hr.1 hnd

theorem not_prefix_child (s d : Path) (x : String) (h : ¬ s <+: d ∧ ¬ d <+: s) :
    ¬ s <+: d ++ [x] := by
  intro h1
  rcases List.prefix_concat_iff.1 h1 with e | h2
  · exact h.2 (by rw [e]; exact List.prefix_append _ _)
  · exact h.1 h2

theorem child_outside (d k : Path) (x : String) (h1 : ¬ d <+: k) (h2 : ¬ k <+: d) :
    ¬ (d ++ [x]) <+: k ∧ ¬ k <+: (d ++ [x]) := by
  refine ⟨fun h => h1 ((List.prefix_append _ _).trans h), fun h => ?_⟩
  rcases List.prefix_concat_iff.1 h with e | h3
  · exact h1 (by rw [e]; exact List.prefix_append _ _)
  · exact h2 h3

theorem sibling_outside (d : Path) (x z : String) (r : List String) (hz : z ≠ x) :
    ¬ (d ++ [x]) <+: (d ++ z :: r) ∧ ¬ (d ++ z :: r) <+: (d ++ [x]) := by
  constructor
  · intro h
    rw [List.prefix_append_right_inj] at h
    rw [List.cons_prefix_cons] at h
    exact hz h.1.symm
  · intro h
    rw [List.prefix_append_right_inj] at h
    rw [List.cons_prefix_cons] at h
    exact hz h.1

theorem LoopSpec_cons (fsA fsM fsB : FS) (s d : Path) (x : String) (es : List String)
    (hinc : ¬ s <+: d ∧ ¬ d <+: s) (hx : x ∉ es)
    (h1 : CopySpec fsA fsM (s ++ [x]) (d ++ [x])) (h2 : LoopSpec fsM fsB s d es) :
    LoopSpec fsA fsB s d (x :: es) := by
  have hsrc : ∀ k, s <+: k → get fsM k = get fsA k :=
    source_untouched fsA fsM s d (d ++ [x]) hinc (List.prefix_append _ _) h1.outside
      (not_prefix_child s d x hinc)
  have hreach : ∀ z r, Reach fsM (s ++ [z]) r ↔ Reach fsA (s ++ [z]) r := fun z r =>
    Reach_congr fsA fsM (s ++ [z]) r (fun k hk => hsrc k ((List.prefix_append _ _).trans hk))
  have hget : ∀ z r, get fsM (s ++ z :: r) = get fsA (s ++ z :: r) := fun z r =>
    hsrc _ (List.prefix_append _ _)
  have hassoc : ∀ (p : Path) (z : String) (r : List String), p ++ [z] ++ r = p ++ z :: r := by
    intro p z r; simp
  have hkeep : ∀ r, get fsB (d ++ x :: r) = get fsM (d ++ x :: r) := by
    intro r
    by_contra hne
    exact hx (h2.inside x r hne).1
  refine ⟨fun k hk1 hk2 => ?_, fun k hk => h2.dirs k (h1.dirs k hk), ?_, ?_, ?_⟩
  · rw [h2.outside k hk1 hk2]
    exact h1.outside k (child_outside d k x hk1 hk2).1 (child_outside d k x hk1 hk2).2
  · intro z r hne
    by_cases hM : get fsB (d ++ z :: r) = get fsM (d ++ z :: r)
    · rw [hM] at hne
      by_cases hz : z = x
      · subst hz
        have := h1.inside r (by rw [hassoc]; exact hne)
        rw [hassoc] at this
        exact ⟨List.mem_cons_self _ _, this⟩
      · exact absurd (h1.outside _ (sibling_outside d x z r hz).1
          (sibling_outside d x z r hz).2) hne
    · obtain ⟨hz, hr, hfd⟩ := h2.inside z r hM
      exact ⟨List.mem_cons_of_mem _ hz, (hreach z r).1 hr, by rw [← hget]; exact hfd⟩
  · intro z r data pm mt hz hr hf
    rcases List.mem_cons.1 hz with e | hz1
    · subst e
      rw [hkeep, ← hassoc]
      exact h1.files r data pm mt hr (by rw [hassoc]; exact hf)
    · exact h2.files z r data pm mt hz1 ((hreach z r).2 hr) (by rw [hget]; exact hf)
  · intro z r hz hr hdir
    rcases List.mem_cons.1 hz with e | hz1
    · subst e
      rw [hkeep, ← hassoc]
      exact h1.subdirs r hr (by rw [hassoc]; exact hdir)
    · exact h2.subdirs z r hz1 ((hreach z r).2 hr) (by rw [hget]; exact hdir)

theorem copyEntries_spec (n : Nat)
    (ih : ∀ (fs fs1 : FS) (s d : Path) (crush : Bool), Proper s → Proper d →
      (¬ s <+: d ∧ ¬ d <+: s) → ProperNames fs →
      CopyDir n fs s d crush = some (fs1, none) → CopySpec fs fs1 s d)
    (s d : Path) (crush : Bool) (hs : Proper s) (hd : Proper d)
    (hinc : ¬ s <+: d ∧ ¬ d <+: s) :
    ∀ (es : List (String × Inode)) (fsA fsB : FS), ProperNames fsA →
      (es.map Prod.fst).Nodup → (∀ e ∈ es, get fsA (s ++ [e.1]) = some e.2) →
      copyEntries (CopyDir n) s d crush es fsA = some (fsB, none) →
      LoopSpec fsA fsB s d (es.map Prod.fst) := by
  intro es
  induction es with
  | nil =>
    intro fsA fsB _ _ _ h
    simp only [copyEntries, Option.some.injEq, Prod.mk.injEq, and_true] at h
    subst h
    exact ⟨fun _ _ _ => rfl, fun _ h => h, fun _ _ h => absurd rfl h,
      fun _ _ _ _ _ h => (by cases h), fun _ _ h => (by cases h)⟩
  | cons e es ihes =>
    intro fsA fsB hpn hnodup hent h
    obtain ⟨x, v⟩ := e
    have hgx : get fsA (s ++ [x]) = some v := hent (x, v) (List.mem_cons_self _ _)
    have hx : properName x := by
      have := hpn (s ++ [x]) (by rw [hgx]; simp)
      exact this x (by simp)
    have hpd : Proper (d ++ [x]) := proper_concat _ _ hd hx
    simp only [List.map_cons, List.nodup_cons] at hnodup
    have key : ∃ fsM, CopySpec fsA fsM (s ++ [x]) (d ++ [x]) ∧
        copyEntries (CopyDir n) s d crush es fsM = some (fsB, none) := by
      simp only [copyEntries, Join_proper _ _ hs hx, Join_proper _ _ hd hx] at h
      by_cases hdir : v.IsDir = true
      · rw [if_pos hdir] at h
        cases hc : CopyDir n fsA (s ++ [x]) (d ++ [x]) crush with
        | none => rw [hc] at h; cases h
        | some res =>
          obtain ⟨fsM, eM⟩ := res
          rw [hc] at h
          cases eM with
          | some eM => simp at h
          | none =>
            exact ⟨fsM, ih _ _ _ _ _ (proper_concat _ _ hs hx) hpd
              (incomparable_child s d x hinc) hpn hc, h⟩
      · rw [if_neg hdir] at h
        have hdir2 : v.IsDir = false := by simpa using hdir
        by_cases hl : v.IsSymlink = true
        · rw [if_pos hl] at h
          refine ⟨fsA, CopySpec_skip fsA _ _ v hgx hdir2 ?_, h⟩
          intro data pm mt e
          rw [e] at hl
          cases hl
        · rw [if_neg hl] at h
          cases hc : CopyFile fsA (s ++ [x]) (d ++ [x]) with
          | none => rw [hc] at h; simp at h
          | some res =>
            obtain ⟨fsM, eM⟩ := res
            rw [hc] at h
            cases eM with
            | some eM => simp at h
            | none =>
              refine ⟨fsM, CopySpec_file fsA fsM _ d x hc ?_ ?_, h⟩
              · intro e
                exact (incomparable_child s d x hinc).1 (by rw [e])
              · intro e
                exact hinc.1 (by rw [← e]; exact List.prefix_append _ _)
    obtain ⟨fsM, hspec, hrest⟩ := key
    have hsrc : ∀ k, s <+: k → get fsM k = get fsA k :=
      source_untouched fsA fsM s d (d ++ [x]) hinc (List.prefix_append _ _) hspec.outside
        (not_prefix_child s d x hinc)
    have hloop := ihes fsM fsB (hspec.properNames hpn hpd) hnodup.2
      (fun e he => by
        rw [hsrc _ (List.prefix_append _ _)]
        exact hent e (List.mem_cons_of_mem _ he)) hrest
    exact LoopSpec_cons fsA fsM fsB s d x _ hinc hnodup.1 hspec hloop

theorem entry_exists (fs : FS) (s : Path) (x : String) (r : List String)
    (hr : Reach fs (s ++ [x]) r) (hg : get fs (s ++ x :: r) ≠ none) :
    get fs (s ++ [x]) ≠ none := by
  cases r with
  | nil => exact hg
  | cons y r =>
    intro e
    have := hr.1
    rw [e] at this
    exact this

theorem CopyDir_spec (n : Nat) : ∀ (fs fs1 : FS) (s d : Path) (crush : Bool),
    Proper s → Proper d → (¬ s <+: d ∧ ¬ d <+: s) → ProperNames fs →
    CopyDir n fs s d crush = some (fs1, none) → CopySpec fs fs1 s d := by
  induction n with
  | zero => intro fs fs1 s d crush _ _ _ _ h; simp [CopyDir] at h
  | succ n ih =>
    intro fs fs1 s d crush hs hd hinc hpn h
    have hcs : Clean s = s := Clean_of_proper _ hs
    have hcd : Clean d = d := Clean_of_proper _ hd
    rcases CopyDir_succ n fs s d crush with
      ⟨fs2, e, h1, _⟩ | ⟨si, fsM, es, hst, hdir, hm, hrd, h1⟩
    · rw [h1] at h
      simp at h
    · rw [hcs] at hst hrd h1
      rw [hcd] at hm h1
      rw [h1] at h
      obtain ⟨mstep, mdir⟩ := MkdirAll_step _ _ _ _ _ hm
      have hpnM : ProperNames fsM :=
        ProperNames_step fs fsM _ hpn mstep (fun q hq => proper_of_init _ _ hq hd)
      obtain ⟨hent, hnodup, _⟩ := ReadDir_ok _ _ _ hrd
      have loop := copyEntries_spec n ih s d crush hs hd hinc es fsM fs1 hpnM hnodup
        (fun e he => (hent e.1 e.2).1 he) h
      have hsrc : ∀ k, s <+: k → get fsM k = get fs k := fun k hk =>
        mstep.1 k (fun hk2 => hinc.1 (hk.trans hk2))
      have hsdir : isDirO (get fs s) := by
        rw [Stat_ok_get _ _ _ hst]
        exact isDirO_of_IsDir _ hdir
      have hreach : ∀ z r, Reach fsM (s ++ [z]) r ↔ Reach fs (s ++ [z]) r := fun z r =>
        Reach_congr fs fsM (s ++ [z]) r (fun k hk => hsrc k ((List.prefix_append _ _).trans hk))
      have hget : ∀ z r, get fsM (s ++ z :: r) = get fs (s ++ z :: r) := fun z r =>
        hsrc _ (List.prefix_append _ _)
      have hmem : ∀ x r, Reach fs (s ++ [x]) r → get fs (s ++ x :: r) ≠ none →
          x ∈ es.map Prod.fst := by
        intro x r hr hg
        have h2 := entry_exists fs s x r hr hg
        rw [← hsrc _ (List.prefix_append _ _)] at h2
        cases hv : get fsM (s ++ [x]) with
        | none => exact absurd hv h2
        | some v => exact List.mem_map.2 ⟨(x, v), (hent x v).2 hv, rfl⟩
      have hdM : ∀ x r, get fsM (d ++ x :: r) = get fs (d ++ x :: r) := fun x r =>
        mstep.1 _ (fun hk => by
          have := hk.length_le
          simp at this)
      refine ⟨fun k hk1 hk2 => ?_, fun k hk => loop.dirs k (mstep.2.1 k hk), ?_, ?_, ?_⟩
      · rw [loop.outside k hk1 hk2]
        exact mstep.1 k hk2
      · intro r hne
        cases r with
        | nil =>
          rw [List.append_nil]
          refine ⟨trivial, ?_⟩
          cases hg : get fs s with
          | none => rw [hg] at hsdir; cases hsdir
          | some v =>
            rw [hg] at hsdir
            cases v with
            | dir _ _ => trivial
            | file _ _ _ => trivial
            | symlink => cases hsdir
            | fifo _ _ => cases hsdir
        | cons x r =>
          rw [← hdM] at hne
          obtain ⟨_, hr, hfd⟩ := loop.inside x r hne
          exact ⟨⟨hsdir, (hreach x r).1 hr⟩, by rw [← hget]; exact hfd⟩
      · intro r data pm mt hr hf
        cases r with
        | nil =>
          rw [List.append_nil] at hf
          rw [hf] at hsdir
          cases hsdir
        | cons x r =>
          have hx := hmem x r hr.2 (by rw [hf]; simp)
          exact loop.files x r data pm mt hx ((hreach x r).2 hr.2) (by rw [hget]; exact hf)
      · intro r hr hdr
        cases r with
        | nil =>
          rw [List.append_nil]
          exact loop.dirs d (mdir rfl)
        | cons x r =>
          have hx := hmem x r hr.2 (isDirO_ne_none _ hdr)
          exact loop.subdirs x r hx ((hreach x r).2 hr.2) (by rw [hget]; exact hdr)

theorem properNames_of_nodes (fs : FS) (h : ∀ kv ∈ fs.nodes, Proper kv.1) : ProperNames fs := by
  intro k hk
  obtain ⟨v, hv⟩ := (lookup_some_iff_mem _ _).1 hk
  exact h (k, v) hv

theorem lookup_mem (nodes : List (Path × Inode)) (k : Path) (v : Inode)
    (h : lookup nodes k = some v) : (k, v) ∈ nodes := by
  induction nodes with
  | nil => cases h
  | cons kv nodes ih =>
    obtain ⟨k1, v1⟩ := kv
    by_cases e : k1 = k
    · simp only [lookup, if_pos e] at h
      cases h
      rw [e]
      exact List.mem_cons_self _ _
    · simp only [lookup, if_neg e] at h
      exact List.mem_cons_of_mem _ (ih h)

theorem noFifo_of_nodes (fs : FS) (h : ∀ kv ∈ fs.nodes, ¬ isFifoO (some kv.2)) :
    NoFifo fs := by
  intro k hk
  cases hg : get fs k with
  | none => rw [hg] at hk; exact hk
  | some v =>
    rw [hg] at hk
    exact h (k, v) (lookup_mem _ _ _ hg) hk

theorem properNames_treeFS : ProperNames treeFS :=
  properNames_of_nodes _ (by decide)

/-- C1: when the cleaned source is a directory and `os.Stat` finds the cleaned
destination (whatever it is), `CopyDir(src, dst, false)`, at any recursion bound of
at least one, returns the error "Destination already exists" and leaves the file
system exactly as it was. -/
theorem CopyDir_existing_destination_refused (n : Nat) (fs : FS) (src dst : Path)
    (pm mt : Nat) (w : Inode)
    (hs : Stat fs (Clean src) = .ok (.dir pm mt)) (hd : Stat fs (Clean dst) = .ok w) :
    CopyDir (n + 1) fs src dst false
      = some (fs, some (.errorf "Destination already exists")) :=
  CopyDir_dst_exists n fs src dst _ w hs rfl hd

/-- Witness for C1: copying `/s` to the existing `/d`. -/
theorem CopyDir_existing_destination_refused_witness :
    CopyDir 1 treeFS ["s"] ["d"] false
      = some (treeFS, some (.errorf "Destination already exists")) :=
  CopyDir_existing_destination_refused 0 treeFS ["s"] ["d"] 0o755 5 (.dir 0o700 7) rfl rfl

/-- C3: when the cleaned source is a regular file, `CopyDir`, for every destination
and either flag and at any recursion bound of at least one, returns the error
"Source is not a directory" and leaves the file system exactly as it was; the state
of the destination plays no part. -/
theorem CopyDir_file_source_refused (n : Nat) (fs : FS) (src dst : Path) (crush : Bool)
    (data : List Nat) (pm mt : Nat)
    (hs : Stat fs (Clean src) = .ok (.file data pm mt)) :
    CopyDir (n + 1) fs src dst crush
      = some (fs, some (.errorf "Source is not a directory")) :=
  CopyDir_source_not_dir n fs src dst crush _ hs rfl

/-- Witness for C3: the source `/s/f` is a regular file. -/
theorem CopyDir_file_source_refused_witness :
    CopyDir 1 treeFS ["s", "f"] ["e"] true
      = some (treeFS, some (.errorf "Source is not a directory")) :=
  CopyDir_file_source_refused 0 treeFS ["s", "f"] ["e"] true [1, 2] 0o640 3 rfl

/-- C2 as stated fails.  Copying `/s` to the new `/e` returns no error, and the
directory `/s/x` (modification time 4) has the counterpart `/e/x` with modification
time 100.  Copying `/s` to the existing `/d` returns no error, `/s/l` is a symbolic
link and `/d/l` is present, and the directory `/d` keeps permission bits `0700`
against `0755` of `/s`.  Copying `/a/b` to `/a` returns no error, and afterwards
`/a/b/x` is a file of the source with no counterpart `/a/x`. -/
theorem CopyDir_tree_differs :
    (∃ fs1, CopyDir 3 treeFS ["s"] ["e"] true = some (fs1, none) ∧
      get fs1 ["s", "x"] = some (.dir 0o700 4) ∧ get fs1 ["e", "x"] = some (.dir 0o700 100)) ∧
    (∃ fs1, CopyDir 3 treeFS ["s"] ["d"] true = some (fs1, none) ∧
      get fs1 ["s", "l"] = some .symlink ∧ get fs1 ["d", "l"] = some (.file [9] 0o600 1) ∧
      get fs1 ["s"] = some (.dir 0o755 5) ∧ get fs1 ["d"] = some (.dir 0o700 100)) ∧
    (∃ fs1, CopyDir 3 nestFS ["a", "b"] ["a"] true = some (fs1, none) ∧
      get fs1 ["a", "b", "x"] = some (.file [1] 0o644 1) ∧ get fs1 ["a", "x"] = none) :=
  ⟨⟨_, rfl, by decide, by decide⟩, ⟨_, rfl, by decide, by decide, by decide, by decide⟩,
    ⟨_, rfl, by decide, by decide⟩⟩

/-- C2 (amended): in a file system whose paths are made of entry names, when neither
of the cleaned source and destination lies inside the other and
`CopyDir(src, dst, true)` returns no error, then every regular file of the source
tree has at the same place under the destination a regular file with the same
content, permission bits and modification time; every directory of the tree has a
directory there; at the place of a symbolic link of the tree the destination is as
it was before the call, so absent unless it was there already; and the source tree
is unchanged. -/
theorem CopyDir_copies_tree (n : Nat) (fs fs1 : FS) (src dst : Path)
    (hpn : ProperNames fs)
    (hinc : ¬ Clean src <+: Clean dst ∧ ¬ Clean dst <+: Clean src)
    (h : CopyDir n fs src dst true = some (fs1, none)) :
    (∀ r data pm mt, Reach fs (Clean src) r →
      get fs (Clean src ++ r) = some (.file data pm mt) →
      get fs1 (Clean dst ++ r) = some (.file data pm mt)) ∧
    (∀ r, Reach fs (Clean src) r → isDirO (get fs (Clean src ++ r)) →
      isDirO (get fs1 (Clean dst ++ r))) ∧
    (∀ r, get fs (Clean src ++ r) = some .symlink →
      get fs1 (Clean dst ++ r) = get fs (Clean dst ++ r)) ∧
    (∀ k, Clean src <+: k → get fs1 k = get fs k) := by
  rw [CopyDir_Clean] at h
  have spec := CopyDir_spec n fs fs1 (Clean src) (Clean dst) true (proper_Clean _)
    (proper_Clean _) hinc hpn h
  refine ⟨spec.files, spec.subdirs, fun r hl => ?_, fun k hk => ?_⟩
  · by_contra hne
    have := (spec.inside r hne).2
    rw [hl] at this
    exact this
  · apply spec.outside
    · intro h1
      rcases List.prefix_or_prefix_of_prefix hk h1 with h2 | h2
      · exact hinc.1 h2
      · exact hinc.2 h2
    · intro h1
      exact hinc.1 (hk.trans h1)

/-- Witness for C2: the copy of `/s` to the new `/e` holds the file `/s/x/g`. -/
theorem CopyDir_copies_tree_witness :
    ∃ fs1, CopyDir 3 treeFS ["s"] ["e"] true = some (fs1, none) ∧
      get fs1 ["e", "x", "g"] = some (.file [7] 0o600 2) := by
  obtain ⟨fs1, h⟩ : ∃ fs1, CopyDir 3 treeFS ["s"] ["e"] true = some (fs1, none) := ⟨_, rfl⟩
  exact ⟨fs1, h, (CopyDir_copies_tree 3 treeFS fs1 ["s"] ["e"] properNames_treeFS
    (by decide) h).1 ["x", "g"] [7] 0o600 2 ⟨trivial, trivial, trivial⟩ rfl⟩

/-- C8 as stated fails, in its reason and in its conclusion.  The copy of `/a` to
`/a/b`, a destination inside the source: the listing of the source, empty before the
call, holds `b` once `MkdirAll` has created the destination, so the copy enlarges the
set of entries to visit; `CopyDir` copies `/a/b` to `/a/b/b` and so on, has not
returned at the recursion depth 2046, and returns at the depth 2047 the error
`ENAMETOOLONG` of `os.Stat` on a destination of `PATH_MAX` bytes.  The copy of `/s`,
which holds a FIFO, to `/d`: `os.Open` of the FIFO blocks, and at no recursion bound
does `CopyDir` return. -/
theorem CopyDir_reads_its_own_copy :
    names loopFS ["a"] = [] ∧
    names (MkdirAll loopFS ["a", "b"] 0o755).1 ["a"] = ["b"] ∧
    CopyDir 2046 loopFS ["a"] ["a", "b"] true = none ∧
    (∃ fs1, CopyDir 2047 loopFS ["a"] ["a", "b"] true
      = some (fs1, some (.pathError "stat" ("a" :: List.replicate 2047 "b") .ENAMETOOLONG))) ∧
    ¬ ∃ n res, CopyDir n fifoFS ["s"] ["d"] true = some res := by
  have h := Chain_descends 2046 0 loopFS rfl Chain_loopFS
  refine ⟨by decide, by decide, h.2, h.1, ?_⟩
  rintro ⟨n, res, hn⟩
  cases n with
  | zero => cases hn
  | succ n =>
    have hb : CopyDir (n + 1) fifoFS ["s"] ["d"] true = none := by
      rw [CopyDir_enters_loop n fifoFS (MkdirAll fifoFS ["d"] 0o755).1 ["s"] ["d"] true
        (.dir 0o755 1) (.pathError "stat" ["d"] .ENOENT) [("p", .fifo 0o644 1)]
        rfl rfl rfl rfl rfl rfl]
      rfl
    rw [hb] at hn
    cases hn

/-- C8 (amended): in a file system whose paths are made of entry names and which
holds no FIFO, for every source, every destination (a destination inside the source
included) and either flag, the recursion of `CopyDir` terminates: at every recursion
bound above `PATH_MAX` the call returns one and the same result.  Every recursive
call is made on a source path one component longer, and `os.Stat` refuses a path
of `PATH_MAX` bytes. -/
theorem CopyDir_terminates (fs : FS) (src dst : Path) (crush : Bool) (hpn : ProperNames fs)
    (hnf : NoFifo fs) :
    ∃ res, ∀ m, PATH_MAX < m → CopyDir m fs src dst crush = some res :=
  CopyDir_total fs src dst crush hpn hnf

/-- Witness for C8: the copy of `/a` to `/a/b`, a destination inside the source. -/
theorem CopyDir_terminates_witness :
    ProperNames loopFS ∧ NoFifo loopFS ∧
      ∃ res, ∀ m, PATH_MAX < m → CopyDir m loopFS ["a"] ["a", "b"] true = some res :=
  ⟨properNames_of_nodes _ (by decide), noFifo_of_nodes _ (by decide),
    CopyDir_terminates loopFS ["a"] ["a", "b"] true (properNames_of_nodes _ (by decide))
      (noFifo_of_nodes _ (by decide))⟩

end utils
